import Mathlib

/-!
# A shared arena of FIFO byte queues (`src/main.cpp`)

Shallow embedding of the arena in `src/main.cpp` and theorems about it.

Modelling conventions

* `SHARED_MEMORY` is a function from byte offsets (`Int`, relative to the start of the
  array) to bytes.  Only offsets in `[0, DATA_ARRAY_SIZE)` belong to the array: every
  load or store checks this, and an access outside the array makes the whole call
  undefined (`none`).
* `short` is 16 bits wide and stored little-endian in two's complement, `int` is 32 bits
  wide (`sizeof(Q) = 2`, `sizeof(SHIFT_CAST_TYPE) = 4`).  A 4-byte word access through a
  `SHIFT_CAST_TYPE *` moves the four bytes at that address, aligned or not.
* A handle `Q *q` is `none` for `nullptr` and `some k` for the pointer
  `reinterpret_cast<Q *>(SHARED_MEMORY) + k`, the address of slot `k`.
* The hooks `on_out_of_memory` and `on_illegal_operation` print a line and return; the
  lines printed so far are the `log` of the state.
-/

namespace Scs

/-! ## Constants -/

/-- Value of `UNUSED_QUEUE`. -/
abbrev UNUSED_QUEUE : Int := -1

/-- Value of `DATA_ARRAY_SIZE`. -/
abbrev DATA_ARRAY_SIZE : Int := 2048

/-- Value of `MAX_QUEUES`. -/
abbrev MAX_QUEUES : Nat := 64

/-- Value of `BYTES_USED_INDEX = sizeof(Q) * MAX_QUEUES`. -/
abbrev BYTES_USED_INDEX : Int := 2 * 64

/-- Value of `DATA_SHIFT_SIZE = sizeof(SHIFT_CAST_TYPE)`. -/
abbrev DATA_SHIFT_SIZE : Int := 4

/-- Value of `PADDING_SIZE = DATA_SHIFT_SIZE - 1`. -/
abbrev PADDING_SIZE : Int := DATA_SHIFT_SIZE - 1

/-- Value of `DATA_START_OFFSET = BYTES_USED_INDEX + sizeof(BYTES_USED_TYPE)`. -/
abbrev DATA_START_OFFSET : Int := BYTES_USED_INDEX + 2

/-! ## Memory -/

/-- One `unsigned char`. -/
abbrev Byte := Fin 256

/-- The bytes at each offset from the start of `SHARED_MEMORY`. -/
abbrev Mem := Int → Byte

/-- The low eight bits of an integer. -/
def byte (x : Int) : Byte := ⟨(x % 256).toNat, by omega⟩

/-- Conversion of an `int` to `short`: reduction modulo `2^16` into `[-2^15, 2^15)`. -/
def toShort (x : Int) : Int := (x + 32768) % 65536 - 32768

/-- Memory after one byte is replaced. -/
def write (m : Mem) (a : Int) (b : Byte) : Mem := fun x => if x = a then b else m x

/-- The `short` held in the two bytes at `a` (little-endian, two's complement). -/
def rd16 (m : Mem) (a : Int) : Int :=
  toShort (((m a).val : Int) + 256 * ((m (a + 1)).val : Int))

/-- Memory after the `short` `v` is stored in the two bytes at `a`. -/
def wr16 (m : Mem) (a : Int) (v : Int) : Mem :=
  write (write m a (byte v)) (a + 1) (byte (v / 256))

/-- Read of `SHARED_MEMORY[a]`. -/
def load8 (m : Mem) (a : Int) : Option Byte :=
  if 0 ≤ a ∧ a < DATA_ARRAY_SIZE then some (m a) else none

/-- Store to `SHARED_MEMORY[a]`. -/
def store8 (m : Mem) (a : Int) (b : Byte) : Option Mem :=
  if 0 ≤ a ∧ a < DATA_ARRAY_SIZE then some (write m a b) else none

/-- Read through a `short *` pointing at offset `a`. -/
def load16 (m : Mem) (a : Int) : Option Int :=
  if 0 ≤ a ∧ a + 1 < DATA_ARRAY_SIZE then some (rd16 m a) else none

/-- Store through a `short *` pointing at offset `a`. -/
def store16 (m : Mem) (a : Int) (v : Int) : Option Mem :=
  if 0 ≤ a ∧ a + 1 < DATA_ARRAY_SIZE then some (wr16 m a v) else none

/-- Read through a `SHIFT_CAST_TYPE *` pointing at offset `a`: the four bytes there. -/
def load32 (m : Mem) (a : Int) : Option (Byte × Byte × Byte × Byte) :=
  if 0 ≤ a ∧ a + 3 < DATA_ARRAY_SIZE then some (m a, m (a + 1), m (a + 2), m (a + 3)) else none

/-- Store through a `SHIFT_CAST_TYPE *` pointing at offset `a`. -/
def store32 (m : Mem) (a : Int) (w : Byte × Byte × Byte × Byte) : Option Mem :=
  if 0 ≤ a ∧ a + 3 < DATA_ARRAY_SIZE then
    some (write (write (write (write m a w.1) (a + 1) w.2.1) (a + 2) w.2.2.1) (a + 3) w.2.2.2)
  else none

/-! ## State and failure hooks -/

/-- The two notices the failure hooks print. -/
inductive Failure where
  | OutOfMemory
  | IllegalOperation
  deriving DecidableEq, Repr

/-- The buffer together with the notices printed so far, oldest first. -/
structure Arena where
  mem : Mem
  log : List Failure

/-- The hook `on_out_of_memory`: prints its notice and returns. -/
def on_out_of_memory (s : Arena) : Arena := { s with log := s.log ++ [Failure.OutOfMemory] }

/-- The hook `on_illegal_operation`: prints its notice and returns. -/
def on_illegal_operation (s : Arena) : Arena :=
  { s with log := s.log ++ [Failure.IllegalOperation] }

/-! ## The operations -/

/-- The function `get_num_copies`: `ceil((float)a / 4)`.  The argument is a difference of
`short` values, so both conversions and the division by four are exact. -/
def get_num_copies (a : Int) : Int := (a + 3) / 4

/-- The loop `for (i = 0; i < n; i++) *(dst--) = *(src--);` over 4-byte words. -/
def copy_down (m : Mem) : Nat → Int → Int → Option Mem
  | 0, _, _ => some m
  | n + 1, src, dst => do
    let w ← load32 m src
    let m1 ← store32 m dst w
    copy_down m1 n (src - DATA_SHIFT_SIZE) (dst - DATA_SHIFT_SIZE)

/-- The loop `for (i = 0; i < n; i++) *(dst++) = *(src++);` over 4-byte words. -/
def copy_up (m : Mem) : Nat → Int → Int → Option Mem
  | 0, _, _ => some m
  | n + 1, src, dst => do
    let w ← load32 m src
    let m1 ← store32 m dst w
    copy_up m1 n (src + DATA_SHIFT_SIZE) (dst + DATA_SHIFT_SIZE)

/-- The loop `while (q_size != q) { if (*q_size > 0) offset += *q_size; q_size++; }`:
`n` slots remain before `q`, `q_size` points at slot `i`. -/
def walk (m : Mem) : Nat → Nat → Int → Option Int
  | 0, _, offset => some offset
  | n + 1, i, offset => do
    let q_size ← load16 m (2 * (i : Int))
    walk m n (i + 1) (if q_size > 0 then toShort (offset + q_size) else offset)

/-- The function `initialize_data`, its loop over the table: slots `0 .. n-1` set to
`UNUSED_QUEUE`. -/
def init_table (m : Mem) : Nat → Mem
  | 0 => m
  | i + 1 => wr16 (init_table m i) (2 * (i : Int)) UNUSED_QUEUE

/-- The function `initialize_data`. -/
def initialize_data (s : Arena) : Arena :=
  { s with mem := wr16 (init_table s.mem MAX_QUEUES) BYTES_USED_INDEX DATA_START_OFFSET }

/-- The `for` loop of `create_queue`: `n` slots remain, `q_size` points at slot `i`.
`bytes_used` is the value of `*bytes_used`, which no store has changed since it was read.
The result is the handle returned and the state left. -/
def create_scan (s : Arena) (bytes_used : Int) : Nat → Nat → Int → Option (Option Nat × Arena)
  | 0, _, _ => some (none, on_illegal_operation s)
  | n + 1, i, offset => do
    let q_size ← load16 s.mem (2 * (i : Int))
    if q_size = UNUSED_QUEUE then do
      let num_copies := get_num_copies (bytes_used - offset)
      let m1 ← copy_down s.mem num_copies.toNat (bytes_used - DATA_SHIFT_SIZE) (bytes_used - 1)
      let m2 ← store16 m1 (2 * (i : Int)) PADDING_SIZE
      let bu ← load16 m2 BYTES_USED_INDEX
      let m3 ← store16 m2 BYTES_USED_INDEX (bu + PADDING_SIZE)
      some (some i, { s with mem := m3 })
    else create_scan s bytes_used n (i + 1) (toShort (offset + q_size))

/-- The function `create_queue`. -/
def create_queue (s : Arena) : Option (Option Nat × Arena) := do
  let bytes_used ← load16 s.mem BYTES_USED_INDEX
  let s1 := if bytes_used ≥ DATA_ARRAY_SIZE - PADDING_SIZE - 2 then on_out_of_memory s else s
  create_scan s1 bytes_used MAX_QUEUES 0 DATA_START_OFFSET

/-- The function `destroy_queue`.  With `q == nullptr` the hook is called and the walk
then never meets `q` and runs off the array. -/
def destroy_queue (s : Arena) (q : Option Nat) : Option Arena :=
  match q with
  | none => none
  | some k => do
    let qv ← load16 s.mem (2 * (k : Int))
    let s1 := if qv = UNUSED_QUEUE then on_illegal_operation s else s
    let offset ← walk s.mem k 0 DATA_START_OFFSET
    let bytes_used ← load16 s.mem BYTES_USED_INDEX
    let num_copies := get_num_copies (bytes_used - offset - qv)
    let m1 ← copy_up s.mem num_copies.toNat (offset + qv) offset
    let bu ← load16 m1 BYTES_USED_INDEX
    let qv1 ← load16 m1 (2 * (k : Int))
    let m2 ← store16 m1 BYTES_USED_INDEX (bu - qv1)
    let m3 ← store16 m2 (2 * (k : Int)) UNUSED_QUEUE
    some { s1 with mem := m3 }

/-- The function `enqueue_byte`.  With `q == nullptr` the hook is called and the walk
then never meets `q` and runs off the array. -/
def enqueue_byte (s : Arena) (q : Option Nat) (b : Byte) : Option Arena :=
  match q with
  | none => none
  | some k => do
    let bytes_used ← load16 s.mem BYTES_USED_INDEX
    let s1 := if bytes_used ≥ DATA_ARRAY_SIZE then on_out_of_memory s else s
    let start ← walk s.mem k 0 DATA_START_OFFSET
    let q_size ← load16 s.mem (2 * (k : Int))
    let offset := toShort (start + q_size)
    let num_copies := get_num_copies (bytes_used - offset)
    let m1 ← copy_down s.mem num_copies.toNat (bytes_used - DATA_SHIFT_SIZE)
      (bytes_used - (DATA_SHIFT_SIZE - 1))
    let m2 ← store8 m1 (offset - PADDING_SIZE) b
    let bu ← load16 m2 BYTES_USED_INDEX
    let m3 ← store16 m2 BYTES_USED_INDEX (bu + 1)
    let qv ← load16 m3 (2 * (k : Int))
    let m4 ← store16 m3 (2 * (k : Int)) (qv + 1)
    some { s1 with mem := m4 }

/-- The function `dequeue_byte`.  With `q == nullptr` the hook is called and the walk
then never meets `q` and runs off the array. -/
def dequeue_byte (s : Arena) (q : Option Nat) : Option (Byte × Arena) :=
  match q with
  | none => none
  | some k => do
    let qv ← load16 s.mem (2 * (k : Int))
    let s1 := if qv ≤ PADDING_SIZE then on_illegal_operation s else s
    let offset ← walk s.mem k 0 DATA_START_OFFSET
    let ret_char ← load8 s.mem offset
    let bytes_used ← load16 s.mem BYTES_USED_INDEX
    let num_copies := get_num_copies (bytes_used - offset - 1)
    let m1 ← copy_up s.mem num_copies.toNat (offset + 1) offset
    let bu ← load16 m1 BYTES_USED_INDEX
    let m2 ← store16 m1 BYTES_USED_INDEX (bu - 1)
    let qv1 ← load16 m2 (2 * (k : Int))
    let m3 ← store16 m2 (2 * (k : Int)) (qv1 - 1)
    some (ret_char, { s1 with mem := m3 })

/-- The array as the program finds it at start-up: static storage, all zero, nothing
printed. -/
def boot : Arena := { mem := fun _ => 0, log := [] }

/-- The function `main`, first paragraph (up to the first `printf` line): the bytes
printed, the two handles and the state left. -/
def main_part1 (s : Arena) : Option (List Byte × Option Nat × Option Nat × Arena) := do
  let (q0, s) ← create_queue s
  let s ← enqueue_byte s q0 0
  let s ← enqueue_byte s q0 1
  let (q1, s) ← create_queue s
  let s ← enqueue_byte s q1 3
  let s ← enqueue_byte s q0 2
  let s ← enqueue_byte s q1 4
  let (r1, s) ← dequeue_byte s q0
  let (r2, s) ← dequeue_byte s q0
  some ([r1, r2], q0, q1, s)

/-- The function `main`, second paragraph (up to `destroy_queue(q0)`). -/
def main_part2 (q0 q1 : Option Nat) (s : Arena) : Option (List Byte × Arena) := do
  let s ← enqueue_byte s q0 5
  let s ← enqueue_byte s q1 6
  let (r3, s) ← dequeue_byte s q0
  let (r4, s) ← dequeue_byte s q0
  let s ← destroy_queue s q0
  some ([r3, r4], s)

/-- The function `main`, third paragraph (up to `destroy_queue(q1)`). -/
def main_part3 (q1 : Option Nat) (s : Arena) : Option (List Byte × Arena) := do
  let (r5, s) ← dequeue_byte s q1
  let (r6, s) ← dequeue_byte s q1
  let (r7, s) ← dequeue_byte s q1
  let s ← destroy_queue s q1
  some ([r5, r6, r7], s)

/-- The function `main`: the bytes it prints, in order, and the state it leaves. -/
def main : Option (List Byte × Arena) := do
  let (out1, q0, q1, s) ← main_part1 (initialize_data boot)
  let (out2, s) ← main_part2 q0 q1 s
  let (out3, s) ← main_part3 q1 s
  some (out1 ++ out2 ++ out3, s)

/-! ## The data model of the specification, read off the buffer -/

/-- The record of slot `i`: `UNUSED_QUEUE` or the size of the queue's span. -/
def slot (m : Mem) (i : Nat) : Int := rd16 m (2 * (i : Int))

/-- The usage counter. -/
def usage (m : Mem) : Int := rd16 m BYTES_USED_INDEX

/-- Size of the span reserved for slot `i`: nothing for an `Unused` slot. -/
def span (m : Mem) (i : Nat) : Int := if slot m i = UNUSED_QUEUE then 0 else slot m i

/-- Sum of the sizes of the occupied slots among the first `k`. -/
def occupied_sum (m : Mem) : Nat → Int
  | 0 => 0
  | k + 1 => occupied_sum m k + span m k

/-- Derived offset of slot `k`: `DataStart` plus the sizes of the lower occupied slots. -/
def offset_of (m : Mem) (k : Nat) : Int := DATA_START_OFFSET + occupied_sum m k

/-- Logical contents of the queue in slot `k`: the `size - OVERHEAD` bytes at its
derived offset. -/
def contents (m : Mem) (k : Nat) : List Byte :=
  (List.range (slot m k - PADDING_SIZE).toNat).map (fun (j : Nat) => m (offset_of m k + (j : Int)))

/-- Well-formed arena: every slot is `Unused` or holds a size of at least `OVERHEAD`, and
the usage counter is `DataStart` plus the sizes of the occupied slots. -/
structure WellFormed (m : Mem) : Prop where
  slots : ∀ i, i < MAX_QUEUES → slot m i = UNUSED_QUEUE ∨ PADDING_SIZE ≤ slot m i
  usage_eq : usage m = DATA_START_OFFSET + occupied_sum m MAX_QUEUES

instance (m : Mem) : Decidable (WellFormed m) :=
  decidable_of_iff
    ((∀ i, i < MAX_QUEUES → slot m i = UNUSED_QUEUE ∨ PADDING_SIZE ≤ slot m i) ∧
      usage m = DATA_START_OFFSET + occupied_sum m MAX_QUEUES)
    ⟨fun h => ⟨h.1, h.2⟩, fun h => ⟨h.slots, h.usage_eq⟩⟩

/-! ## Reachable states -/

/-- States reached from `initialize_data` by calls whose stated preconditions hold:
`create_queue` with the usage counter at most `Capacity - OVERHEAD - 2`, `destroy_queue`
on an occupied slot, `enqueue_byte` on an occupied slot with the usage counter below
`Capacity`, `dequeue_byte` on an occupied slot of size above `OVERHEAD`. -/
inductive Reachable : Arena → Prop where
  | init (s : Arena) : Reachable (initialize_data s)
  | create (s s1 : Arena) (q : Option Nat) : Reachable s →
      usage s.mem ≤ DATA_ARRAY_SIZE - PADDING_SIZE - 2 →
      create_queue s = some (q, s1) → Reachable s1
  | destroy (s s1 : Arena) (k : Nat) : Reachable s → k < MAX_QUEUES →
      slot s.mem k ≠ UNUSED_QUEUE →
      destroy_queue s (some k) = some s1 → Reachable s1
  | enqueue (s s1 : Arena) (k : Nat) (b : Byte) : Reachable s → k < MAX_QUEUES →
      slot s.mem k ≠ UNUSED_QUEUE → usage s.mem < DATA_ARRAY_SIZE →
      enqueue_byte s (some k) b = some s1 → Reachable s1
  | dequeue (s s1 : Arena) (k : Nat) (r : Byte) : Reachable s → k < MAX_QUEUES →
      slot s.mem k ≠ UNUSED_QUEUE → slot s.mem k > PADDING_SIZE →
      dequeue_byte s (some k) = some (r, s1) → Reachable s1

/-- Interleavings of `enqueue_byte` and `dequeue_byte` calls on two queues `a` and `b`, each
call made with its stated precondition and completing.  `Interleaved a b s ins outs s1`:
from `s` such calls lead to `s1`, `ins` are the bytes enqueued to `b` and `outs` the bytes
the dequeues on `b` returned, both in call order. -/
inductive Interleaved (a b : Nat) (s : Arena) : List Byte → List Byte → Arena → Prop where
  | start : Interleaved a b s [] [] s
  | enqueue_a (ins outs : List Byte) (s1 s2 : Arena) (x : Byte) :
      Interleaved a b s ins outs s1 → usage s1.mem < DATA_ARRAY_SIZE →
      enqueue_byte s1 (some a) x = some s2 → Interleaved a b s ins outs s2
  | enqueue_b (ins outs : List Byte) (s1 s2 : Arena) (x : Byte) :
      Interleaved a b s ins outs s1 → usage s1.mem < DATA_ARRAY_SIZE →
      enqueue_byte s1 (some b) x = some s2 → Interleaved a b s (ins ++ [x]) outs s2
  | dequeue_a (ins outs : List Byte) (s1 s2 : Arena) (r : Byte) :
      Interleaved a b s ins outs s1 → slot s1.mem a > PADDING_SIZE →
      dequeue_byte s1 (some a) = some (r, s2) → Interleaved a b s ins outs s2
  | dequeue_b (ins outs : List Byte) (s1 s2 : Arena) (r : Byte) :
      Interleaved a b s ins outs s1 → slot s1.mem b > PADDING_SIZE →
      dequeue_byte s1 (some b) = some (r, s2) → Interleaved a b s ins (outs ++ [r]) s2

/-! ## Call sequences and sample arenas -/

/-- The calls `enqueue_byte(q, b)` for the bytes of a list, in order. -/
def enqueue_all (s : Arena) (q : Option Nat) : List Byte → Option Arena
  | [] => some s
  | b :: bs => do
    let s1 ← enqueue_byte s q b
    enqueue_all s1 q bs

/-- The call `dequeue_byte(q)` made `n` times: the bytes returned, in order, and the state
left. -/
def dequeue_n (s : Arena) (q : Option Nat) : Nat → Option (List Byte × Arena)
  | 0 => some ([], s)
  | n + 1 => do
    let (b, s1) ← dequeue_byte s q
    let (bs, s2) ← dequeue_n s1 q n
    some (b :: bs, s2)

/-- The call `create_queue()` made `n` times: the handles returned, in order, and the state
left. -/
def create_many (s : Arena) : Nat → Option (List (Option Nat) × Arena)
  | 0 => some ([], s)
  | n + 1 => do
    let (q, s1) ← create_queue s
    let (qs, s2) ← create_many s1 n
    some (q :: qs, s2)

/-- Table records written from slot `i` on. -/
def set_slots (m : Mem) : Nat → List Int → Mem
  | _, [] => m
  | i, v :: vs => set_slots (wr16 m (2 * (i : Int)) v) (i + 1) vs

/-- A sample arena: the first slots hold the given records and all others are `Unused`, the
usage counter holds `bytes_used`, nothing has been printed. -/
def arena_of (records : List Int) (bytes_used : Int) : Arena :=
  { mem := wr16 (set_slots (initialize_data boot).mem 0 records) BYTES_USED_INDEX bytes_used,
    log := [] }

/-- A sample state: `initialize_data`, then `create_queue`. -/
def sample_created : Arena :=
  ((create_queue (initialize_data boot)).map Prod.snd).getD boot

/-- A sample state: `initialize_data`, `create_queue`, then `enqueue_byte` of 7 on the
handle returned. -/
def sample_enqueued : Arena :=
  (enqueue_byte sample_created (some 0) 7).getD boot

/-! ## States the operations leave -/

/-- Two memories with the same table and usage counter (the bytes below `DataStart`). -/
def SameTable (m1 m : Mem) : Prop := ∀ x, 0 ≤ x → x < 130 → m1 x = m x

/-- The state `create_queue` leaves when it takes slot `k` and the word copies yield `m1`. -/
def created (s : Arena) (k : Nat) (m1 : Mem) : Arena :=
  { mem := wr16 (wr16 m1 (2 * (k : Int)) 3) BYTES_USED_INDEX (usage s.mem + 3),
    log := if 2043 ≤ usage s.mem then s.log ++ [Failure.OutOfMemory] else s.log }

/-- The state `destroy_queue` leaves for slot `k` when the word copies yield `m1`. -/
def destroyed (s : Arena) (k : Nat) (m1 : Mem) : Arena :=
  { mem := wr16 (wr16 m1 BYTES_USED_INDEX (usage s.mem - slot s.mem k)) (2 * (k : Int)) (-1),
    log := s.log }

/-- The state `enqueue_byte` leaves for slot `k` when the word copies yield `m1`. -/
def enqueued (s : Arena) (k : Nat) (b : Byte) (m1 : Mem) : Arena :=
  { mem := wr16 (wr16 (write m1 (offset_of s.mem k + slot s.mem k - 3) b)
      BYTES_USED_INDEX (usage s.mem + 1)) (2 * (k : Int)) (slot s.mem k + 1),
    log := if 2048 ≤ usage s.mem then s.log ++ [Failure.OutOfMemory] else s.log }

/-- The state `dequeue_byte` leaves for slot `k` when the word copies yield `m1`. -/
def dequeued (s : Arena) (k : Nat) (m1 : Mem) : Arena :=
  { mem := wr16 (wr16 m1 BYTES_USED_INDEX (usage s.mem - 1)) (2 * (k : Int)) (slot s.mem k - 1),
    log := if slot s.mem k ≤ 3 then s.log ++ [Failure.IllegalOperation] else s.log }

/-! ## Counting the stored bytes -/

/-- Number of bytes enqueued and not yet dequeued, over the first `n` slots. -/
def stored_bytes (m : Mem) : Nat → Int
  | 0 => 0
  | n + 1 => stored_bytes m n + ((contents m n).length : Int)

/-- Number of occupied slots among the first `n`. -/
def occupied_count (m : Mem) : Nat → Int
  | 0 => 0
  | n + 1 => occupied_count m n + (if slot m n = UNUSED_QUEUE then 0 else 1)

/-- A sample state with a gap in the table: `initialize_data`, two `create_queue` calls,
bytes 5 and 6 enqueued to the second queue, then `destroy_queue` of the first. -/
def sample_gap : Arena :=
  ((create_queue (initialize_data boot)).bind (fun c0 =>
    (create_queue c0.2).bind (fun c1 =>
      (enqueue_byte c1.2 c1.1 5).bind (fun s =>
        (enqueue_byte s c1.1 6).bind (fun s => destroy_queue s c0.1))))).getD boot

/-- Below `DataStart`, `m1` differs from `m` at most in the record of slot `k` and in the
usage counter: every other byte of the table is the same. -/
def TableFrame (k : Nat) (m1 m : Mem) : Prop :=
  ∀ x, 0 ≤ x → x < DATA_START_OFFSET → x ≠ 2 * (k : Int) → x ≠ 2 * (k : Int) + 1 →
    x ≠ BYTES_USED_INDEX → x ≠ BYTES_USED_INDEX + 1 → m1 x = m x

/-! # Theorems -/

/-! ## Bytes and shorts -/

theorem PADDING_SIZE_eq : PADDING_SIZE = 3 := by decide

theorem write_same (m : Mem) (a : Int) (b : Byte) : write m a b a = b := by
  simp [write]

theorem write_other (m : Mem) (a : Int) (b : Byte) (x : Int) (h : x ≠ a) :
    write m a b x = m x := by
  simp [write, h]

theorem toShort_id (x : Int) (h1 : -32768 ≤ x) (h2 : x < 32768) : toShort x = x := by
  unfold toShort; omega

theorem rd16_range (m : Mem) (a : Int) : -32768 ≤ rd16 m a ∧ rd16 m a < 32768 := by
  unfold rd16 toShort; omega

theorem rd16_congr (m m1 : Mem) (a : Int) (h0 : m1 a = m a) (h1 : m1 (a + 1) = m (a + 1)) :
    rd16 m1 a = rd16 m a := by
  simp [rd16, h0, h1]

theorem wr16_other (m : Mem) (a v x : Int) (h0 : x ≠ a) (h1 : x ≠ a + 1) :
    wr16 m a v x = m x := by
  simp [wr16, write, h0, h1]

theorem rd16_wr16_same (m : Mem) (a v : Int) (h1 : -32768 ≤ v) (h2 : v < 32768) :
    rd16 (wr16 m a v) a = v := by
  have e0 : wr16 m a v a = byte v := by simp [wr16, write]
  have e1 : wr16 m a v (a + 1) = byte (v / 256) := by simp [wr16, write]
  simp only [rd16, e0, e1, byte, toShort]
  omega

theorem rd16_wr16_other (m : Mem) (a v x : Int) (h : x + 1 < a ∨ a + 1 < x) :
    rd16 (wr16 m a v) x = rd16 m x := by
  apply rd16_congr <;> apply wr16_other <;> omega

/-! ## The word-copy loops -/

theorem load32_some (m : Mem) (a : Int) (h0 : 0 ≤ a) (h1 : a + 3 < 2048) :
    load32 m a = some (m a, m (a + 1), m (a + 2), m (a + 3)) := by
  simp [load32, h0, h1]

theorem store32_some (m : Mem) (a : Int) (w : Byte × Byte × Byte × Byte)
    (h0 : 0 ≤ a) (h1 : a + 3 < 2048) :
    store32 m a w =
      some (write (write (write (write m a w.1) (a + 1) w.2.1) (a + 2) w.2.2.1) (a + 3) w.2.2.2) := by
  simp [store32, h0, h1]

/-- One word copy: the memory after `*dst = *src`. -/
theorem word_copy_val (m m1 : Mem) (src dst : Int) (w : Byte × Byte × Byte × Byte)
    (hl : load32 m src = some w) (hs : store32 m dst w = some m1) (x : Int) :
    m1 x = if dst ≤ x ∧ x ≤ dst + 3 then m (x - (dst - src)) else m x := by
  unfold load32 at hl
  unfold store32 at hs
  split at hl <;> simp at hl
  split at hs <;> simp at hs
  subst hl hs
  simp only [write]
  by_cases h0 : x = dst + 3
  · subst h0; simp; congr 1; omega
  by_cases h1 : x = dst + 2
  · subst h1; simp; congr 1; omega
  by_cases h2 : x = dst + 1
  · subst h2; simp; congr 1; omega
  by_cases h3 : x = dst
  · subst h3; simp
  · have : ¬ (dst ≤ x ∧ x ≤ dst + 3) := by omega
    simp [h0, h1, h2, h3, this]

theorem copy_down_val (n : Nat) : ∀ (m m1 : Mem) (src dst : Int), src ≤ dst →
    copy_down m n src dst = some m1 →
    ∀ x, m1 x = if dst + 4 - 4 * (n : Int) ≤ x ∧ x ≤ dst + 3 then m (x - (dst - src)) else m x := by
  induction n with
  | zero =>
    intro m m1 src dst _ h x
    simp [copy_down] at h
    subst h
    rw [if_neg (by omega)]
  | succ n ih =>
    intro m m1 src dst hd h x
    simp only [copy_down, Option.bind_eq_bind, Option.bind_eq_some] at h
    obtain ⟨w, hl, m2, hs, hc⟩ := h
    have h2 := word_copy_val m m2 src dst w hl hs
    have h1 := ih m2 m1 (src - 4) (dst - 4) (by omega) hc x
    rw [h1]
    by_cases hx : dst - 4 + 4 - 4 * (n : Int) ≤ x ∧ x ≤ dst - 4 + 3
    · rw [if_pos hx, h2, if_neg (by omega), if_pos (by push_cast; omega)]
      congr 1; omega
    · rw [if_neg hx, h2]
      by_cases hy : dst ≤ x ∧ x ≤ dst + 3
      · rw [if_pos hy, if_pos (by push_cast; omega)]
      · rw [if_neg hy, if_neg (by push_cast; omega)]

theorem copy_down_some (n : Nat) : ∀ (m : Mem) (src dst : Int), src ≤ dst →
    (0 < n → 4 * (n : Int) ≤ src + 4 ∧ dst + 3 < 2048) →
    ∃ m1, copy_down m n src dst = some m1 := by
  induction n with
  | zero => intro m src dst _ _; exact ⟨m, rfl⟩
  | succ n ih =>
    intro m src dst hd hb
    have hb1 := hb (Nat.succ_pos n)
    push_cast at hb1
    simp only [copy_down, Option.bind_eq_bind]
    rw [load32_some m src (by omega) (by omega), Option.some_bind,
      store32_some m dst _ (by omega) (by omega), Option.some_bind]
    apply ih _ (src - 4) (dst - 4) (by omega)
    intro hn
    omega

theorem copy_up_val (n : Nat) : ∀ (m m1 : Mem) (src dst : Int), dst ≤ src →
    copy_up m n src dst = some m1 →
    ∀ x, m1 x = if dst ≤ x ∧ x < dst + 4 * (n : Int) then m (x + (src - dst)) else m x := by
  induction n with
  | zero =>
    intro m m1 src dst _ h x
    simp [copy_up] at h
    subst h
    rw [if_neg (by omega)]
  | succ n ih =>
    intro m m1 src dst hd h x
    simp only [copy_up, Option.bind_eq_bind, Option.bind_eq_some] at h
    obtain ⟨w, hl, m2, hs, hc⟩ := h
    have h2 := word_copy_val m m2 src dst w hl hs
    have h1 := ih m2 m1 (src + 4) (dst + 4) (by omega) hc x
    rw [h1]
    by_cases hx : dst + 4 ≤ x ∧ x < dst + 4 + 4 * (n : Int)
    · rw [if_pos hx, h2, if_neg (by omega), if_pos (by push_cast; omega)]
      congr 1; omega
    · rw [if_neg hx, h2]
      by_cases hy : dst ≤ x ∧ x ≤ dst + 3
      · rw [if_pos hy, if_pos (by push_cast; omega)]
        congr 1; omega
      · rw [if_neg hy, if_neg (by push_cast; omega)]

theorem copy_up_some (n : Nat) : ∀ (m : Mem) (src dst : Int), dst ≤ src →
    (0 < n → 0 ≤ dst ∧ src + 4 * (n : Int) ≤ 2048) →
    ∃ m1, copy_up m n src dst = some m1 := by
  induction n with
  | zero => intro m src dst _ _; exact ⟨m, rfl⟩
  | succ n ih =>
    intro m src dst hd hb
    have hb1 := hb (Nat.succ_pos n)
    push_cast at hb1
    simp only [copy_up, Option.bind_eq_bind]
    rw [load32_some m src (by omega) (by omega), Option.some_bind,
      store32_some m dst _ (by omega) (by omega), Option.some_bind]
    apply ih _ (src + 4) (dst + 4) (by omega)
    intro hn
    omega

/-- A word copy whose last source word leaves the array is undefined. -/
theorem copy_up_none (n : Nat) : ∀ (m : Mem) (src dst : Int),
    0 < n → 2048 < src + 4 * (n : Int) → copy_up m n src dst = none := by
  induction n with
  | zero => intro m src dst h; omega
  | succ n ih =>
    intro m src dst _ hb
    push_cast at hb
    simp only [copy_up, Option.bind_eq_bind]
    cases hl : load32 m src with
    | none => rfl
    | some w =>
      rw [Option.some_bind]
      cases hs : store32 m dst w with
      | none => rfl
      | some m2 =>
        rw [Option.some_bind]
        have hsrc : src + 3 < 2048 := by
          unfold load32 at hl
          split at hl
          · rename_i h; exact h.2
          · simp at hl
        apply ih m2 (src + 4) (dst + 4)
        · omega
        · omega

/-! ## The table and the usage counter -/

theorem load16_some (m : Mem) (a : Int) (h0 : 0 ≤ a) (h1 : a + 1 < 2048) :
    load16 m a = some (rd16 m a) := by
  simp [load16, h0, h1]

theorem store16_some (m : Mem) (a v : Int) (h0 : 0 ≤ a) (h1 : a + 1 < 2048) :
    store16 m a v = some (wr16 m a v) := by
  simp [store16, h0, h1]

theorem load16_slot (m : Mem) (i : Nat) (h : i < 1023) :
    load16 m (2 * (i : Int)) = some (slot m i) :=
  load16_some m _ (by omega) (by omega)

theorem load16_usage (m : Mem) : load16 m BYTES_USED_INDEX = some (usage m) :=
  load16_some m _ (by decide) (by decide)

theorem store16_slot (m : Mem) (i : Nat) (v : Int) (h : i < 1023) :
    store16 m (2 * (i : Int)) v = some (wr16 m (2 * (i : Int)) v) :=
  store16_some m _ v (by omega) (by omega)

theorem store16_usage (m : Mem) (v : Int) :
    store16 m BYTES_USED_INDEX v = some (wr16 m BYTES_USED_INDEX v) :=
  store16_some m _ v (by decide) (by decide)

theorem SameTable.slot_eq {m1 m : Mem} (h : SameTable m1 m) (i : Nat) (hi : i < 64) :
    slot m1 i = slot m i := by
  apply rd16_congr <;> apply h <;> omega

theorem SameTable.usage_eq {m1 m : Mem} (h : SameTable m1 m) : usage m1 = usage m := by
  apply rd16_congr <;> apply h <;> decide

theorem slot_wr16_slot (m : Mem) (i j : Nat) (v : Int) :
    slot (wr16 m (2 * (j : Int)) v) i = if i = j then toShort v else slot m i := by
  by_cases h : i = j
  · subst h
    have e0 : wr16 m (2 * (i : Int)) v (2 * (i : Int)) = byte v := by simp [wr16, write]
    have e1 : wr16 m (2 * (i : Int)) v (2 * (i : Int) + 1) = byte (v / 256) := by
      simp [wr16, write]
    simp only [slot, rd16, e0, e1, byte, toShort, if_true]
    omega
  · rw [if_neg h]
    exact rd16_wr16_other m _ v _ (by omega)

theorem slot_wr16_usage (m : Mem) (i : Nat) (v : Int) (hi : i < 64) :
    slot (wr16 m BYTES_USED_INDEX v) i = slot m i :=
  rd16_wr16_other m _ v _ (by simp only [BYTES_USED_INDEX]; omega)

theorem usage_wr16_slot (m : Mem) (i : Nat) (v : Int) (hi : i < 64) :
    usage (wr16 m (2 * (i : Int)) v) = usage m :=
  rd16_wr16_other m _ v _ (by simp only [BYTES_USED_INDEX]; omega)

theorem usage_wr16_usage (m : Mem) (v : Int) :
    usage (wr16 m BYTES_USED_INDEX v) = toShort v := by
  have e0 : wr16 m BYTES_USED_INDEX v BYTES_USED_INDEX = byte v := by simp [wr16, write]
  have e1 : wr16 m BYTES_USED_INDEX v (BYTES_USED_INDEX + 1) = byte (v / 256) := by
    simp [wr16, write]
  simp only [usage, rd16, e0, e1, byte, toShort]
  omega

theorem wr16_slot_data (m : Mem) (i : Nat) (v x : Int) (hi : i < 64)
    (hx : 130 ≤ x) : wr16 m (2 * (i : Int)) v x = m x :=
  wr16_other m _ v x (by omega) (by omega)

theorem wr16_usage_data (m : Mem) (v x : Int) (hx : 130 ≤ x) :
    wr16 m BYTES_USED_INDEX v x = m x :=
  wr16_other m _ v x (by simp only [BYTES_USED_INDEX]; omega)
    (by simp only [BYTES_USED_INDEX]; omega)

theorem span_def (m : Mem) (i : Nat) : span m i = if slot m i = -1 then 0 else slot m i := rfl

theorem offset_of_zero (m : Mem) : offset_of m 0 = 130 := by
  simp only [offset_of, occupied_sum, DATA_START_OFFSET, BYTES_USED_INDEX]; omega

theorem occupied_sum_succ (m : Mem) (k : Nat) :
    occupied_sum m (k + 1) = occupied_sum m k + span m k := rfl

theorem occupied_sum_congr (m1 m : Mem) (n : Nat) (h : ∀ i, i < n → slot m1 i = slot m i) :
    occupied_sum m1 n = occupied_sum m n := by
  induction n with
  | zero => rfl
  | succ n ih =>
    rw [occupied_sum_succ, occupied_sum_succ, ih (fun i hi => h i (Nat.lt_succ_of_lt hi)),
      span_def, span_def, h n (Nat.lt_succ_self n)]

theorem occupied_sum_update (m1 m : Mem) (k : Nat) (n : Nat) (hk : k < n)
    (h : ∀ i, i < n → i ≠ k → slot m1 i = slot m i) :
    occupied_sum m1 n = occupied_sum m n + (span m1 k - span m k) := by
  induction n with
  | zero => omega
  | succ n ih =>
    by_cases hkn : k = n
    · subst hkn
      rw [occupied_sum_succ, occupied_sum_succ,
        occupied_sum_congr m1 m k (fun i hi => h i (Nat.lt_succ_of_lt hi) (by omega))]
      omega
    · rw [occupied_sum_succ, occupied_sum_succ,
        ih (by omega) (fun i hi hik => h i (Nat.lt_succ_of_lt hi) hik)]
      have : span m1 n = span m n := by
        rw [span_def, span_def, h n (Nat.lt_succ_self n) (by omega)]
      omega

theorem WellFormed.slot_cases {m : Mem} (h : WellFormed m) (i : Nat) (hi : i < 64) :
    slot m i = -1 ∨ 3 ≤ slot m i := h.slots i hi

theorem WellFormed.span_nonneg {m : Mem} (h : WellFormed m) (i : Nat) (hi : i < 64) :
    0 ≤ span m i := by
  rw [span_def]
  rcases h.slot_cases i hi with h1 | h1
  · simp [h1]
  · split <;> omega

theorem WellFormed.sum_mono {m : Mem} (h : WellFormed m) (j : Nat) :
    ∀ i, i ≤ j → j ≤ 64 → occupied_sum m i ≤ occupied_sum m j := by
  induction j with
  | zero => intro i hi _; have : i = 0 := by omega
            subst this; exact le_refl _
  | succ j ih =>
    intro i hi hj
    by_cases hij : i = j + 1
    · subst hij; exact le_refl _
    · have h1 := ih i (by omega) (by omega)
      have h2 := h.span_nonneg j (by omega)
      rw [occupied_sum_succ]; omega

theorem WellFormed.offset_le_usage {m : Mem} (h : WellFormed m) (i : Nat) (hi : i ≤ 64) :
    offset_of m i ≤ usage m := by
  have := h.sum_mono 64 i hi (le_refl _)
  have e : usage m = 130 + occupied_sum m 64 := h.usage_eq
  rw [e]; unfold offset_of; simp only [DATA_START_OFFSET, BYTES_USED_INDEX]; omega

theorem WellFormed.offset_ge {m : Mem} (h : WellFormed m) (i : Nat) (hi : i ≤ 64) :
    130 ≤ offset_of m i := by
  have := h.sum_mono i 0 (Nat.zero_le _) hi
  have e := offset_of_zero m
  unfold offset_of at e ⊢; omega

theorem offset_of_succ (m : Mem) (k : Nat) : offset_of m (k + 1) = offset_of m k + span m k := by
  unfold offset_of; rw [occupied_sum_succ]; omega

theorem usage_lt (m : Mem) : usage m < 32768 := (rd16_range m _).2

theorem walk_spec (m : Mem) (h : WellFormed m) (n : Nat) :
    ∀ i, i + n ≤ 64 → walk m n i (offset_of m i) = some (offset_of m (i + n)) := by
  induction n with
  | zero => intro i _; rfl
  | succ n ih =>
    intro i hi
    simp only [walk, Option.bind_eq_bind]
    rw [load16_slot m i (by omega), Option.some_bind]
    have hs := offset_of_succ m i
    have h1 := h.offset_le_usage (i + 1) (by omega)
    have h2 := h.offset_ge (i + 1) (by omega)
    have h3 := usage_lt m
    have e : (if slot m i > 0 then toShort (offset_of m i + slot m i) else offset_of m i) =
        offset_of m (i + 1) := by
      rw [hs, span_def]
      rcases h.slot_cases i (by omega) with h4 | h4
      · simp [h4]
      · rw [if_pos (by omega), if_neg (by omega)]
        rw [hs, span_def] at h1 h2
        rw [if_neg (by omega)] at h1 h2
        exact toShort_id _ (by omega) (by omega)
    have e2 : i + 1 + n = i + (n + 1) := by omega
    rw [e, ih (i + 1) (by omega), e2]

theorem walk_start (m : Mem) (h : WellFormed m) (k : Nat) (hk : k ≤ 64) :
    walk m k 0 DATA_START_OFFSET = some (offset_of m k) := by
  have := walk_spec m h k 0 (by omega)
  rw [Nat.zero_add, offset_of_zero] at this
  exact this

/-! ## The operations on a well-formed arena -/

theorem copy_down_sameTable (m m1 : Mem) (n : Nat) (src dst : Int) (hd : src ≤ dst)
    (h : copy_down m n src dst = some m1) (hlo : 130 ≤ dst + 4 - 4 * (n : Int)) :
    SameTable m1 m := by
  intro x _ hx
  rw [copy_down_val n m m1 src dst hd h x, if_neg (by omega)]

theorem copy_up_sameTable (m m1 : Mem) (n : Nat) (src dst : Int) (hd : dst ≤ src)
    (h : copy_up m n src dst = some m1) (hlo : 130 ≤ dst) :
    SameTable m1 m := by
  intro x _ hx
  rw [copy_up_val n m m1 src dst hd h x, if_neg (by omega)]

/-- The quotient computed by `get_num_copies` is the ceiling of `a / 4`. -/
theorem get_num_copies_eq_ceil (a : Int) : get_num_copies a = ⌈(a : ℚ) / 4⌉ := by
  symm
  rw [Int.ceil_eq_iff]
  unfold get_num_copies
  have h1 : 4 * ((a + 3) / 4) ≤ a + 3 := by omega
  have h2 : a ≤ 4 * ((a + 3) / 4) := by omega
  have h1q : (4 : ℚ) * (((a + 3) / 4 : Int) : ℚ) ≤ (a : ℚ) + 3 := by exact_mod_cast h1
  have h2q : (a : ℚ) ≤ 4 * (((a + 3) / 4 : Int) : ℚ) := by exact_mod_cast h2
  constructor <;> linarith

theorem get_num_copies_bounds (a : Int) (h : 0 ≤ a) :
    a ≤ 4 * ((get_num_copies a).toNat : Int) ∧ 4 * ((get_num_copies a).toNat : Int) ≤ a + 3 := by
  unfold get_num_copies; omega

theorem create_scan_skip (s : Arena) (B : Int) (h : WellFormed s.mem) (r n : Nat) :
    ∀ i, i + n ≤ 64 → (∀ j, i ≤ j → j < i + n → slot s.mem j ≠ -1) →
      create_scan s B (n + r) i (offset_of s.mem i) =
        create_scan s B r (i + n) (offset_of s.mem (i + n)) := by
  induction n with
  | zero => intro i _ _; simp
  | succ n ih =>
    intro i hi hocc
    have e1 : n + 1 + r = (n + r) + 1 := by omega
    have e2 : i + 1 + n = i + (n + 1) := by omega
    have hne := hocc i (le_refl _) (by omega)
    have hs := offset_of_succ s.mem i
    have h1 := h.offset_le_usage (i + 1) (by omega)
    have h2 := h.offset_ge i (by omega)
    have h3 := usage_lt s.mem
    have h4 : 3 ≤ slot s.mem i := by
      rcases h.slot_cases i (by omega) with h5 | h5
      · exact absurd h5 hne
      · exact h5
    rw [span_def, if_neg hne] at hs
    rw [e1]
    simp only [create_scan, Option.bind_eq_bind]
    rw [load16_slot s.mem i (by omega), Option.some_bind, if_neg hne,
      toShort_id _ (by omega) (by omega), ← hs,
      ih (i + 1) (by omega) (fun j hj1 hj2 => hocc j (by omega) (by omega)), e2]

theorem create_scan_full (s : Arena) (B : Int) (n : Nat) :
    ∀ i off, i + n ≤ 64 → (∀ j, i ≤ j → j < i + n → slot s.mem j ≠ -1) →
      create_scan s B n i off = some (none, on_illegal_operation s) := by
  induction n with
  | zero => intro i off _ _; rfl
  | succ n ih =>
    intro i off hi hocc
    simp only [create_scan, Option.bind_eq_bind]
    rw [load16_slot s.mem i (by omega), Option.some_bind, if_neg (hocc i (le_refl _) (by omega))]
    exact ih (i + 1) _ (by omega) (fun j hj1 hj2 => hocc j (by omega) (by omega))

theorem create_queue_eq (s : Arena) (h : WellFormed s.mem) (k : Nat) (hk : k < 64)
    (hocc : ∀ j, j < k → slot s.mem j ≠ -1) (hun : slot s.mem k = -1) :
    create_queue s =
      (copy_down s.mem (get_num_copies (usage s.mem - offset_of s.mem k)).toNat
        (usage s.mem - 4) (usage s.mem - 1)).map (fun m1 => (some k, created s k m1)) := by
  have hle := h.offset_le_usage k (by omega)
  have hge := h.offset_ge k (by omega)
  have hn := get_num_copies_bounds (usage s.mem - offset_of s.mem k) (by omega)
  simp only [create_queue, Option.bind_eq_bind]
  rw [load16_usage, Option.some_bind]
  have key : ∀ s1 : Arena, s1.mem = s.mem →
      create_scan s1 (usage s.mem) 64 0 DATA_START_OFFSET =
        (copy_down s.mem (get_num_copies (usage s.mem - offset_of s.mem k)).toNat
          (usage s.mem - 4) (usage s.mem - 1)).map
            (fun m1 => (some k, { s1 with mem := (created s k m1).mem })) := by
    intro s1 hm
    have hw1 : WellFormed s1.mem := by rw [hm]; exact h
    have e64 : 64 = k + (64 - k - 1 + 1) := by omega
    have e0 := create_scan_skip s1 (usage s.mem) hw1 (64 - k - 1 + 1) k 0 (by omega)
      (fun j _ hj => by rw [hm]; exact hocc j (by omega))
    rw [Nat.zero_add, offset_of_zero] at e0
    have e130 : DATA_START_OFFSET = 130 := by decide
    rw [e130]
    conv_lhs => rw [e64]
    rw [e0]
    simp only [create_scan, Option.bind_eq_bind]
    rw [load16_slot s1.mem k (by omega), Option.some_bind, hm, hun, if_pos rfl]
    cases hc : copy_down s.mem (get_num_copies (usage s.mem - offset_of s.mem k)).toNat
      (usage s.mem - DATA_SHIFT_SIZE) (usage s.mem - 1) with
    | none => rfl
    | some m1 =>
      have hc2 : copy_down s.mem (get_num_copies (usage s.mem - offset_of s.mem k)).toNat
          (usage s.mem - 4) (usage s.mem - 1) = some m1 := hc
      have hst := copy_down_sameTable _ _ _ _ _ (by omega) hc2 (by omega)
      rw [Option.some_bind, store16_slot m1 k _ (by omega), Option.some_bind, load16_usage,
        Option.some_bind, store16_usage, Option.some_bind, usage_wr16_slot _ _ _ hk,
        hst.usage_eq]
      rfl
  by_cases hB : 2043 ≤ usage s.mem
  · have e : (if usage s.mem ≥ DATA_ARRAY_SIZE - PADDING_SIZE - 2 then on_out_of_memory s else s) =
        on_out_of_memory s := if_pos hB
    have ef : (fun m1 => (some k, ({ on_out_of_memory s with mem := (created s k m1).mem } : Arena)))
        = (fun m1 => (some k, created s k m1)) := by
      funext m1; simp only [created, on_out_of_memory, if_pos hB]
    rw [e, key (on_out_of_memory s) rfl, ef]
  · have e : (if usage s.mem ≥ DATA_ARRAY_SIZE - PADDING_SIZE - 2 then on_out_of_memory s else s) =
        s := if_neg hB
    have ef : (fun m1 => (some k, ({ s with mem := (created s k m1).mem } : Arena)))
        = (fun m1 => (some k, created s k m1)) := by
      funext m1; simp only [created, if_neg hB]
    rw [e, key s rfl, ef]

theorem create_queue_full (s : Arena) (hfull : ∀ j, j < 64 → slot s.mem j ≠ -1) :
    create_queue s = some (none,
      on_illegal_operation (if 2043 ≤ usage s.mem then on_out_of_memory s else s)) := by
  simp only [create_queue, Option.bind_eq_bind]
  rw [load16_usage, Option.some_bind]
  have e : (if usage s.mem ≥ DATA_ARRAY_SIZE - PADDING_SIZE - 2 then on_out_of_memory s else s) =
      (if 2043 ≤ usage s.mem then on_out_of_memory s else s) := rfl
  rw [e]
  apply create_scan_full _ _ 64 0 _ (by omega)
  intro j _ hj
  have hm : (if 2043 ≤ usage s.mem then on_out_of_memory s else s).mem = s.mem := by
    split <;> rfl
  rw [hm]
  exact hfull j (by omega)

theorem WellFormed.end_le_usage {m : Mem} (h : WellFormed m) (k : Nat) (hk : k < 64)
    (hocc : slot m k ≠ -1) : offset_of m k + slot m k ≤ usage m := by
  have h1 := h.offset_le_usage (k + 1) (by omega)
  rw [offset_of_succ, span_def, if_neg hocc] at h1
  exact h1

theorem WellFormed.size_ge {m : Mem} (h : WellFormed m) (k : Nat) (hk : k < 64)
    (hocc : slot m k ≠ -1) : 3 ≤ slot m k := by
  rcases h.slot_cases k hk with h5 | h5
  · exact absurd h5 hocc
  · exact h5

theorem destroy_queue_eq (s : Arena) (h : WellFormed s.mem) (k : Nat) (hk : k < 64)
    (hocc : slot s.mem k ≠ -1) :
    destroy_queue s (some k) =
      (copy_up s.mem (get_num_copies (usage s.mem - offset_of s.mem k - slot s.mem k)).toNat
        (offset_of s.mem k + slot s.mem k) (offset_of s.mem k)).map (destroyed s k) := by
  have hge := h.offset_ge k (by omega)
  have hsz := h.size_ge k hk hocc
  simp only [destroy_queue, Option.bind_eq_bind]
  rw [load16_slot s.mem k (by omega), Option.some_bind, walk_start s.mem h k (by omega),
    Option.some_bind, load16_usage, Option.some_bind]
  cases hc : copy_up s.mem (get_num_copies (usage s.mem - offset_of s.mem k - slot s.mem k)).toNat
    (offset_of s.mem k + slot s.mem k) (offset_of s.mem k) with
  | none => rfl
  | some m1 =>
    have hst := copy_up_sameTable _ _ _ _ _ (by omega) hc (by omega)
    rw [Option.some_bind, load16_usage, Option.some_bind, load16_slot m1 k (by omega),
      Option.some_bind, store16_usage, Option.some_bind, store16_slot _ k _ (by omega),
      Option.some_bind, hst.usage_eq, hst.slot_eq k hk]
    have e : (if slot s.mem k = UNUSED_QUEUE then on_illegal_operation s else s) = s :=
      if_neg hocc
    rw [e]
    rfl

theorem enqueue_byte_eq (s : Arena) (h : WellFormed s.mem) (k : Nat) (hk : k < 64)
    (hocc : slot s.mem k ≠ -1) (hB : usage s.mem ≤ 2050) (b : Byte) :
    enqueue_byte s (some k) b =
      (copy_down s.mem (get_num_copies (usage s.mem - (offset_of s.mem k + slot s.mem k))).toNat
        (usage s.mem - 4) (usage s.mem - 3)).map (enqueued s k b) := by
  have hge := h.offset_ge k (by omega)
  have hsz := h.size_ge k hk hocc
  have hend := h.end_le_usage k hk hocc
  have hn := get_num_copies_bounds (usage s.mem - (offset_of s.mem k + slot s.mem k)) (by omega)
  have e43 : (DATA_SHIFT_SIZE : Int) - 1 = 3 := by decide
  have e4 : (DATA_SHIFT_SIZE : Int) = 4 := rfl
  have e3 : (PADDING_SIZE : Int) = 3 := by decide
  have e2048 : (DATA_ARRAY_SIZE : Int) = 2048 := rfl
  simp only [enqueue_byte, Option.bind_eq_bind]
  rw [load16_usage, Option.some_bind, walk_start s.mem h k (by omega), Option.some_bind,
    load16_slot s.mem k (by omega), Option.some_bind, toShort_id _ (by omega) (by omega),
    e43, e4, e3, e2048]
  cases hc2 : copy_down s.mem
    (get_num_copies (usage s.mem - (offset_of s.mem k + slot s.mem k))).toNat
    (usage s.mem - 4) (usage s.mem - 3) with
  | none => rfl
  | some m1 =>
    have hst := copy_down_sameTable _ _ _ _ _ (by omega) hc2 (by omega)
    have hst2 : SameTable (write m1 (offset_of s.mem k + slot s.mem k - 3) b) s.mem := by
      intro x hx0 hx1
      rw [write_other _ _ _ _ (by omega)]
      exact hst x hx0 hx1
    have es : store8 m1 (offset_of s.mem k + slot s.mem k - 3) b =
        some (write m1 (offset_of s.mem k + slot s.mem k - 3) b) := by
      unfold store8
      rw [if_pos ⟨by omega, by rw [e2048]; omega⟩]
    rw [Option.some_bind, es, Option.some_bind, load16_usage, Option.some_bind, store16_usage,
      Option.some_bind, load16_slot _ k (by omega), Option.some_bind,
      store16_slot _ k _ (by omega), Option.some_bind, slot_wr16_usage _ _ _ hk,
      hst2.usage_eq, hst2.slot_eq k hk]
    by_cases h8 : 2048 ≤ usage s.mem
    · have e : (if usage s.mem ≥ 2048 then on_out_of_memory s else s) = on_out_of_memory s :=
        if_pos h8
      rw [e]
      simp only [Option.map_some', enqueued, on_out_of_memory, if_pos h8]
    · have e : (if usage s.mem ≥ 2048 then on_out_of_memory s else s) = s := if_neg h8
      rw [e]
      simp only [Option.map_some', enqueued, if_neg h8]

theorem dequeue_byte_eq (s : Arena) (h : WellFormed s.mem) (k : Nat) (hk : k < 64)
    (hocc : slot s.mem k ≠ -1) (hB : usage s.mem ≤ 2048) :
    dequeue_byte s (some k) =
      (copy_up s.mem (get_num_copies (usage s.mem - offset_of s.mem k - 1)).toNat
        (offset_of s.mem k + 1) (offset_of s.mem k)).map
          (fun m1 => (s.mem (offset_of s.mem k), dequeued s k m1)) := by
  have hge := h.offset_ge k (by omega)
  have hsz := h.size_ge k hk hocc
  have hend := h.end_le_usage k hk hocc
  have el : load8 s.mem (offset_of s.mem k) = some (s.mem (offset_of s.mem k)) := by
    unfold load8
    rw [if_pos ⟨by omega, by simp only [DATA_ARRAY_SIZE]; omega⟩]
  simp only [dequeue_byte, Option.bind_eq_bind]
  rw [load16_slot s.mem k (by omega), Option.some_bind, walk_start s.mem h k (by omega),
    Option.some_bind, el, Option.some_bind, load16_usage, Option.some_bind]
  cases hc : copy_up s.mem (get_num_copies (usage s.mem - offset_of s.mem k - 1)).toNat
    (offset_of s.mem k + 1) (offset_of s.mem k) with
  | none => rfl
  | some m1 =>
    have hst := copy_up_sameTable _ _ _ _ _ (by omega) hc (by omega)
    rw [Option.some_bind, load16_usage, Option.some_bind, store16_usage, Option.some_bind,
      load16_slot _ k (by omega), Option.some_bind, store16_slot _ k _ (by omega),
      Option.some_bind, slot_wr16_usage _ _ _ hk, hst.usage_eq, hst.slot_eq k hk]
    by_cases h3 : slot s.mem k ≤ 3
    · have e : (if slot s.mem k ≤ PADDING_SIZE then on_illegal_operation s else s) =
          on_illegal_operation s := if_pos h3
      rw [e]
      simp only [Option.map_some', dequeued, on_illegal_operation, if_pos h3]
    · have e : (if slot s.mem k ≤ PADDING_SIZE then on_illegal_operation s else s) = s :=
        if_neg h3
      rw [e]
      simp only [Option.map_some', dequeued, if_neg h3]

/-! ## Effect of the operations on the table and the usage counter -/

theorem wellFormed_update (m m1 : Mem) (h : WellFormed m) (k : Nat) (hk : k < 64) (v : Int)
    (hv : v = -1 ∨ 3 ≤ v)
    (hs : ∀ i, i < 64 → slot m1 i = if i = k then v else slot m i)
    (hu : usage m1 = usage m + ((if v = -1 then 0 else v) - span m k)) :
    WellFormed m1 := by
  constructor
  · intro i hi
    have hi2 : i < 64 := hi
    rw [hs i hi2]
    by_cases hik : i = k
    · rw [if_pos hik]; exact hv
    · rw [if_neg hik]; exact h.slots i hi
  · have e1 := occupied_sum_update m1 m k 64 hk (fun i hi hik => by rw [hs i hi, if_neg hik])
    have e2 : usage m = 130 + occupied_sum m 64 := h.usage_eq
    have e3 : span m1 k = if v = -1 then 0 else v := by
      rw [span_def, hs k hk, if_pos rfl]
    show usage m1 = 130 + occupied_sum m1 64
    rw [hu, e1, e2, e3]; omega

theorem created_slot (s : Arena) (k : Nat) (m1 : Mem) (hst : SameTable m1 s.mem)
    (i : Nat) (hi : i < 64) :
    slot (created s k m1).mem i = if i = k then 3 else slot s.mem i := by
  unfold created
  rw [slot_wr16_usage _ _ _ hi, slot_wr16_slot, hst.slot_eq i hi]
  rfl

theorem created_usage (s : Arena) (k : Nat) (m1 : Mem) (hB : usage s.mem ≤ 2048) :
    usage (created s k m1).mem = usage s.mem + 3 := by
  unfold created
  have := (rd16_range s.mem BYTES_USED_INDEX).1
  rw [usage_wr16_usage]
  exact toShort_id _ (by unfold usage; omega) (by omega)

theorem destroyed_slot (s : Arena) (k : Nat) (m1 : Mem) (hst : SameTable m1 s.mem)
    (i : Nat) (hi : i < 64) :
    slot (destroyed s k m1).mem i = if i = k then -1 else slot s.mem i := by
  unfold destroyed
  rw [slot_wr16_slot, slot_wr16_usage _ _ _ hi, hst.slot_eq i hi]
  rfl

theorem destroyed_usage (s : Arena) (h : WellFormed s.mem) (k : Nat) (m1 : Mem) (hk : k < 64)
    (hocc : slot s.mem k ≠ -1) :
    usage (destroyed s k m1).mem = usage s.mem - slot s.mem k := by
  unfold destroyed
  have h1 := h.end_le_usage k hk hocc
  have h2 := h.offset_ge k (by omega)
  have h3 := h.size_ge k hk hocc
  have h4 := usage_lt s.mem
  rw [usage_wr16_slot _ _ _ hk, usage_wr16_usage]
  exact toShort_id _ (by omega) (by omega)

theorem enqueued_slot (s : Arena) (k : Nat) (b : Byte) (m1 : Mem)
    (hst : SameTable m1 s.mem) (hd : 130 ≤ offset_of s.mem k + slot s.mem k - 3)
    (i : Nat) (hi : i < 64) :
    slot (enqueued s k b m1).mem i = if i = k then toShort (slot s.mem k + 1) else slot s.mem i := by
  unfold enqueued
  have hst2 : SameTable (write m1 (offset_of s.mem k + slot s.mem k - 3) b) s.mem := by
    intro x hx0 hx1
    rw [write_other _ _ _ _ (by omega)]
    exact hst x hx0 hx1
  rw [slot_wr16_slot, slot_wr16_usage _ _ _ hi, hst2.slot_eq i hi]

theorem enqueued_usage (s : Arena) (k : Nat) (b : Byte) (m1 : Mem) (hk : k < 64)
    (hB : usage s.mem ≤ 2048) :
    usage (enqueued s k b m1).mem = usage s.mem + 1 := by
  unfold enqueued
  have := (rd16_range s.mem BYTES_USED_INDEX).1
  rw [usage_wr16_slot _ _ _ hk, usage_wr16_usage]
  exact toShort_id _ (by unfold usage; omega) (by omega)

theorem dequeued_slot (s : Arena) (k : Nat) (m1 : Mem) (hst : SameTable m1 s.mem)
    (i : Nat) (hi : i < 64) :
    slot (dequeued s k m1).mem i = if i = k then toShort (slot s.mem k - 1) else slot s.mem i := by
  unfold dequeued
  rw [slot_wr16_slot, slot_wr16_usage _ _ _ hi, hst.slot_eq i hi]

theorem dequeued_usage (s : Arena) (k : Nat) (m1 : Mem) (hk : k < 64)
    (hB : 130 ≤ usage s.mem) :
    usage (dequeued s k m1).mem = usage s.mem - 1 := by
  unfold dequeued
  have := usage_lt s.mem
  rw [usage_wr16_slot _ _ _ hk, usage_wr16_usage]
  exact toShort_id _ (by omega) (by omega)

theorem WellFormed.usage_ge {m : Mem} (h : WellFormed m) : 130 ≤ usage m :=
  le_trans (h.offset_ge 0 (by omega)) (h.offset_le_usage 0 (by omega))

/-- What a completed `create_queue` that finds slot `k` leaves in the table. -/
theorem create_queue_table (s s1 : Arena) (q : Option Nat) (h : WellFormed s.mem) (k : Nat)
    (hk : k < 64) (hocc : ∀ j, j < k → slot s.mem j ≠ -1) (hun : slot s.mem k = -1)
    (hB : usage s.mem ≤ 2048) (hc : create_queue s = some (q, s1)) :
    q = some k ∧ (∀ i, i < 64 → slot s1.mem i = if i = k then 3 else slot s.mem i) ∧
      usage s1.mem = usage s.mem + 3 ∧ WellFormed s1.mem ∧
      s1.log = (if 2043 ≤ usage s.mem then s.log ++ [Failure.OutOfMemory] else s.log) := by
  rw [create_queue_eq s h k hk hocc hun, Option.map_eq_some'] at hc
  obtain ⟨m1, hcp, he⟩ := hc
  have hle := h.offset_le_usage k (by omega)
  have hge := h.offset_ge k (by omega)
  have hn := get_num_copies_bounds (usage s.mem - offset_of s.mem k) (by omega)
  have hst := copy_down_sameTable _ _ _ _ _ (by omega) hcp (by omega)
  obtain ⟨hq, hs1⟩ := Prod.mk.inj he
  subst hs1
  have hsl := created_slot s k m1 hst
  have hus := created_usage s k m1 hB
  refine ⟨hq.symm, hsl, hus, ?_, by simp only [created]⟩
  apply wellFormed_update s.mem _ h k hk 3 (Or.inr (le_refl _)) hsl
  rw [hus, span_def, if_pos hun, if_neg (by omega)]; omega

/-- What a completed `destroy_queue` of an occupied slot leaves in the table. -/
theorem destroy_queue_table (s s1 : Arena) (h : WellFormed s.mem) (k : Nat)
    (hk : k < 64) (hocc : slot s.mem k ≠ -1) (hc : destroy_queue s (some k) = some s1) :
    (∀ i, i < 64 → slot s1.mem i = if i = k then -1 else slot s.mem i) ∧
      usage s1.mem = usage s.mem - slot s.mem k ∧ WellFormed s1.mem ∧ s1.log = s.log := by
  rw [destroy_queue_eq s h k hk hocc, Option.map_eq_some'] at hc
  obtain ⟨m1, hcp, he⟩ := hc
  have hge := h.offset_ge k (by omega)
  have hsz := h.size_ge k hk hocc
  have hst := copy_up_sameTable _ _ _ _ _ (by omega) hcp (by omega)
  subst he
  have hsl := destroyed_slot s k m1 hst
  have hus := destroyed_usage s h k m1 hk hocc
  refine ⟨hsl, hus, ?_, rfl⟩
  apply wellFormed_update s.mem _ h k hk (-1) (Or.inl rfl) hsl
  rw [hus, span_def, if_neg hocc, if_pos rfl]; omega

/-- What a completed `enqueue_byte` on an occupied slot leaves in the table. -/
theorem enqueue_byte_table (s s1 : Arena) (h : WellFormed s.mem) (k : Nat) (b : Byte)
    (hk : k < 64) (hocc : slot s.mem k ≠ -1) (hB : usage s.mem < 2048)
    (hc : enqueue_byte s (some k) b = some s1) :
    (∀ i, i < 64 → slot s1.mem i = if i = k then slot s.mem k + 1 else slot s.mem i) ∧
      usage s1.mem = usage s.mem + 1 ∧ WellFormed s1.mem ∧ s1.log = s.log := by
  rw [enqueue_byte_eq s h k hk hocc (by omega), Option.map_eq_some'] at hc
  obtain ⟨m1, hcp, he⟩ := hc
  have hge := h.offset_ge k (by omega)
  have hsz := h.size_ge k hk hocc
  have hend := h.end_le_usage k hk hocc
  have hn := get_num_copies_bounds (usage s.mem - (offset_of s.mem k + slot s.mem k)) (by omega)
  have hst := copy_down_sameTable _ _ _ _ _ (by omega) hcp (by omega)
  subst he
  have hsl := enqueued_slot s k b m1 hst (by omega)
  have hus := enqueued_usage s k b m1 hk (by omega)
  rw [toShort_id _ (by omega) (by omega)] at hsl
  refine ⟨hsl, hus, ?_, by simp only [enqueued]; rw [if_neg (by omega)]⟩
  apply wellFormed_update s.mem _ h k hk (slot s.mem k + 1) (Or.inr (by omega)) hsl
  rw [hus, span_def, if_neg hocc, if_neg (by omega)]; omega

/-- What a completed `dequeue_byte` on an occupied slot leaves in the table. -/
theorem dequeue_byte_table (s s1 : Arena) (r : Byte) (h : WellFormed s.mem) (k : Nat)
    (hk : k < 64) (hocc : slot s.mem k ≠ -1) (hB : usage s.mem ≤ 2048)
    (hc : dequeue_byte s (some k) = some (r, s1)) :
    r = s.mem (offset_of s.mem k) ∧
      (∀ i, i < 64 → slot s1.mem i = if i = k then slot s.mem k - 1 else slot s.mem i) ∧
      usage s1.mem = usage s.mem - 1 ∧
      s1.log = (if slot s.mem k ≤ 3 then s.log ++ [Failure.IllegalOperation] else s.log) := by
  rw [dequeue_byte_eq s h k hk hocc hB, Option.map_eq_some'] at hc
  obtain ⟨m1, hcp, he⟩ := hc
  have hge := h.offset_ge k (by omega)
  have hsz := h.size_ge k hk hocc
  have hst := copy_up_sameTable _ _ _ _ _ (by omega) hcp (by omega)
  obtain ⟨hr, hs1⟩ := Prod.mk.inj he
  subst hs1
  have hsl := dequeued_slot s k m1 hst
  have hus := dequeued_usage s k m1 hk h.usage_ge
  have h4 := (rd16_range s.mem (2 * (k : Int))).2
  rw [toShort_id _ (by omega) (by unfold slot at hsz ⊢; omega)] at hsl
  exact ⟨hr.symm, hsl, hus, by simp only [dequeued]⟩

theorem dequeue_byte_wellFormed (s s1 : Arena) (r : Byte) (h : WellFormed s.mem) (k : Nat)
    (hk : k < 64) (hne : 3 < slot s.mem k) (hB : usage s.mem ≤ 2048)
    (hc : dequeue_byte s (some k) = some (r, s1)) : WellFormed s1.mem := by
  have hocc : slot s.mem k ≠ -1 := by omega
  obtain ⟨_, hsl, hus, _⟩ := dequeue_byte_table s s1 r h k hk hocc hB hc
  apply wellFormed_update s.mem _ h k hk (slot s.mem k - 1) (Or.inr (by omega)) hsl
  rw [hus, span_def, if_neg hocc, if_neg (by omega)]; omega

/-! ## Initialisation and reachable states -/

theorem slot_init_table (m : Mem) (n : Nat) :
    ∀ i, slot (init_table m n) i = if i < n then -1 else slot m i := by
  induction n with
  | zero => intro i; simp [init_table]
  | succ n ih =>
    intro i
    simp only [init_table]
    rw [slot_wr16_slot, ih i]
    by_cases h1 : i = n
    · rw [if_pos h1, if_pos (by omega)]; rfl
    · rw [if_neg h1]
      by_cases h2 : i < n
      · rw [if_pos h2, if_pos (by omega)]
      · rw [if_neg h2, if_neg (by omega)]

theorem initialize_data_slot (s : Arena) (i : Nat) (hi : i < 64) :
    slot (initialize_data s).mem i = -1 := by
  unfold initialize_data
  simp only []
  rw [slot_wr16_usage _ _ _ hi, slot_init_table, if_pos hi]

theorem initialize_data_usage (s : Arena) : usage (initialize_data s).mem = 130 := by
  unfold initialize_data
  simp only []
  rw [usage_wr16_usage]
  rfl

theorem occupied_sum_unused (m : Mem) (n : Nat) (h : ∀ i, i < n → slot m i = -1) :
    occupied_sum m n = 0 := by
  induction n with
  | zero => rfl
  | succ n ih =>
    rw [occupied_sum_succ, ih (fun i hi => h i (by omega)), span_def,
      if_pos (h n (by omega))]
    rfl

theorem initialize_data_wellFormed (s : Arena) : WellFormed (initialize_data s).mem := by
  constructor
  · intro i hi
    exact Or.inl (initialize_data_slot s i hi)
  · show usage (initialize_data s).mem = 130 + occupied_sum (initialize_data s).mem 64
    rw [initialize_data_usage,
      occupied_sum_unused _ 64 (fun i hi => initialize_data_slot s i hi)]
    rfl

/-- In a well-formed arena either some slot is the first unused one, or none is unused. -/
theorem first_unused (m : Mem) (n : Nat) :
    (∀ j, j < n → slot m j ≠ -1) ∨
      ∃ k, k < n ∧ (∀ j, j < k → slot m j ≠ -1) ∧ slot m k = -1 := by
  induction n with
  | zero => left; intro j hj; omega
  | succ n ih =>
    rcases ih with h | ⟨k, hk, h1, h2⟩
    · by_cases hn : slot m n = -1
      · right; exact ⟨n, by omega, h, hn⟩
      · left; intro j hj
        by_cases hjn : j = n
        · subst hjn; exact hn
        · exact h j (by omega)
    · right; exact ⟨k, by omega, h1, h2⟩

theorem create_queue_invariant (s s1 : Arena) (q : Option Nat) (h : WellFormed s.mem)
    (hB : usage s.mem ≤ 2043) (hc : create_queue s = some (q, s1)) :
    WellFormed s1.mem ∧ usage s1.mem ≤ 2048 := by
  rcases first_unused s.mem 64 with hfull | ⟨k, hk, hocc, hun⟩
  · rw [create_queue_full s hfull] at hc
    obtain ⟨_, hs1⟩ := Prod.mk.inj (Option.some.inj hc)
    have hm : s1.mem = s.mem := by
      rw [← hs1]; unfold on_illegal_operation; simp only []; split <;> rfl
    rw [hm]
    exact ⟨h, by omega⟩
  · obtain ⟨_, _, hus, hwf, _⟩ := create_queue_table s s1 q h k hk hocc hun (by omega) hc
    exact ⟨hwf, by omega⟩

/-- Every reachable state is well formed and its usage counter is at most `Capacity`. -/
theorem reachable_invariant (s : Arena) (h : Reachable s) :
    WellFormed s.mem ∧ usage s.mem ≤ 2048 := by
  induction h with
  | init s =>
    exact ⟨initialize_data_wellFormed s, by rw [initialize_data_usage]; omega⟩
  | create s s1 q _ hB hc ih =>
    have hB2 : usage s.mem ≤ 2043 := hB
    exact create_queue_invariant s s1 q ih.1 hB2 hc
  | destroy s s1 k _ hk hocc hc ih =>
    obtain ⟨_, hus, hwf, _⟩ := destroy_queue_table s s1 ih.1 k hk hocc hc
    have := ih.1.size_ge k hk hocc
    exact ⟨hwf, by omega⟩
  | enqueue s s1 k b _ hk hocc hB hc ih =>
    obtain ⟨_, hus, hwf, _⟩ := enqueue_byte_table s s1 ih.1 k b hk hocc hB hc
    have hB2 : usage s.mem < 2048 := hB
    exact ⟨hwf, by omega⟩
  | dequeue s s1 k r _ hk hocc hne hc ih =>
    have hne2 : 3 < slot s.mem k := hne
    obtain ⟨_, _, hus, _⟩ := dequeue_byte_table s s1 r ih.1 k hk hocc ih.2 hc
    exact ⟨dequeue_byte_wellFormed s s1 r ih.1 k hk hne2 ih.2 hc, by omega⟩

/-! ## Effect of `create_queue` and `destroy_queue` on the data region -/

theorem offset_of_congr (m1 m : Mem) (k : Nat) (h : ∀ i, i < k → slot m1 i = slot m i) :
    offset_of m1 k = offset_of m k := by
  unfold offset_of; rw [occupied_sum_congr m1 m k h]

theorem contents_congr (m1 m : Mem) (j : Nat) (hs : slot m1 j = slot m j)
    (ho : offset_of m1 j = offset_of m j)
    (hd : ∀ x, offset_of m j ≤ x → x < offset_of m j + (slot m j - 3) → m1 x = m x) :
    contents m1 j = contents m j := by
  unfold contents
  rw [hs, ho, PADDING_SIZE_eq]
  apply List.map_congr_left
  intro i hi
  have hi2 : i < (slot m j - 3).toNat := List.mem_range.mp hi
  clear hi
  have h0 : (0 : Int) ≤ (i : Int) := Int.ofNat_nonneg i
  have h1 : (i : Int) < slot m j - 3 := by omega
  show m1 (offset_of m j + (i : Int)) = m (offset_of m j + (i : Int))
  exact hd (offset_of m j + (i : Int)) (by omega) (by omega)

theorem created_data (s : Arena) (h : WellFormed s.mem) (k : Nat) (hk : k < 64) (m1 : Mem)
    (hc : copy_down s.mem (get_num_copies (usage s.mem - offset_of s.mem k)).toNat
      (usage s.mem - 4) (usage s.mem - 1) = some m1) (x : Int) (hx : 130 ≤ x) :
    (x < offset_of s.mem k ∨ usage s.mem + 3 ≤ x → (created s k m1).mem x = s.mem x) ∧
    (offset_of s.mem k + 3 ≤ x → x < usage s.mem + 3 →
      (created s k m1).mem x = s.mem (x - 3)) := by
  have hle := h.offset_le_usage k (by omega)
  have hn := get_num_copies_bounds (usage s.mem - offset_of s.mem k) (by omega)
  have hv := copy_down_val _ _ _ _ _ (by omega) hc x
  have e : (created s k m1).mem x = m1 x := by
    unfold created
    simp only []
    rw [wr16_usage_data _ _ _ hx, wr16_slot_data _ _ _ _ hk hx]
  rw [e, hv]
  constructor
  · intro h1
    rw [if_neg (by omega)]
  · intro h1 h2
    have e2 : x - (usage s.mem - 1 - (usage s.mem - 4)) = x - 3 := by omega
    rw [if_pos (by omega), e2]

theorem destroyed_data (s : Arena) (h : WellFormed s.mem) (k : Nat) (hk : k < 64)
    (hocc : slot s.mem k ≠ -1) (m1 : Mem)
    (hc : copy_up s.mem (get_num_copies (usage s.mem - offset_of s.mem k - slot s.mem k)).toNat
      (offset_of s.mem k + slot s.mem k) (offset_of s.mem k) = some m1) (x : Int) (hx : 130 ≤ x) :
    (x < offset_of s.mem k → (destroyed s k m1).mem x = s.mem x) ∧
    (offset_of s.mem k ≤ x → x < usage s.mem - slot s.mem k →
      (destroyed s k m1).mem x = s.mem (x + slot s.mem k)) := by
  have hend := h.end_le_usage k hk hocc
  have hsz := h.size_ge k hk hocc
  have hn := get_num_copies_bounds (usage s.mem - offset_of s.mem k - slot s.mem k) (by omega)
  have hv := copy_up_val _ _ _ _ _ (by omega) hc x
  have e : (destroyed s k m1).mem x = m1 x := by
    unfold destroyed
    simp only []
    rw [wr16_slot_data _ _ _ _ hk hx, wr16_usage_data _ _ _ hx]
  rw [e, hv]
  constructor
  · intro h1
    rw [if_neg (by omega)]
  · intro h1 h2
    have e2 : x + (offset_of s.mem k + slot s.mem k - offset_of s.mem k) = x + slot s.mem k := by
      omega
    rw [if_pos (by omega), e2]

/-- Completion of `create_queue`: it completes whenever a slot is unused and the usage counter leaves room for
the new span. -/
theorem create_queue_some (s : Arena) (h : WellFormed s.mem) (k : Nat) (hk : k < 64)
    (hocc : ∀ j, j < k → slot s.mem j ≠ -1) (hun : slot s.mem k = -1)
    (hB : usage s.mem ≤ 2045) :
    ∃ m1, copy_down s.mem (get_num_copies (usage s.mem - offset_of s.mem k)).toNat
        (usage s.mem - 4) (usage s.mem - 1) = some m1 ∧
      create_queue s = some (some k, created s k m1) := by
  have hle := h.offset_le_usage k (by omega)
  have hge := h.offset_ge k (by omega)
  have hn := get_num_copies_bounds (usage s.mem - offset_of s.mem k) (by omega)
  obtain ⟨m1, hc⟩ := copy_down_some (get_num_copies (usage s.mem - offset_of s.mem k)).toNat
    s.mem (usage s.mem - 4) (usage s.mem - 1) (by omega) (fun _ => ⟨by omega, by omega⟩)
  refine ⟨m1, hc, ?_⟩
  rw [create_queue_eq s h k hk hocc hun, hc]
  rfl

/-- Completion of `destroy_queue`: on an occupied slot it completes whenever the usage counter is at most
`Capacity - 3`. -/
theorem destroy_queue_some (s : Arena) (h : WellFormed s.mem) (k : Nat) (hk : k < 64)
    (hocc : slot s.mem k ≠ -1) (hB : usage s.mem ≤ 2045) :
    ∃ m1, copy_up s.mem
        (get_num_copies (usage s.mem - offset_of s.mem k - slot s.mem k)).toNat
        (offset_of s.mem k + slot s.mem k) (offset_of s.mem k) = some m1 ∧
      destroy_queue s (some k) = some (destroyed s k m1) := by
  have hge := h.offset_ge k (by omega)
  have hend := h.end_le_usage k hk hocc
  have hsz := h.size_ge k hk hocc
  have hn := get_num_copies_bounds (usage s.mem - offset_of s.mem k - slot s.mem k) (by omega)
  obtain ⟨m1, hc⟩ := copy_up_some
    (get_num_copies (usage s.mem - offset_of s.mem k - slot s.mem k)).toNat
    s.mem (offset_of s.mem k + slot s.mem k) (offset_of s.mem k) (by omega)
    (fun _ => ⟨by omega, by omega⟩)
  refine ⟨m1, hc, ?_⟩
  rw [destroy_queue_eq s h k hk hocc, hc]
  rfl

/-! ## Sequences of calls -/

/-- Completion of `enqueue_byte`: on an occupied slot it completes whenever the usage counter is below
`Capacity`. -/
theorem enqueue_byte_some (s : Arena) (h : WellFormed s.mem) (k : Nat) (hk : k < 64)
    (hocc : slot s.mem k ≠ -1) (hB : usage s.mem < 2048) (b : Byte) :
    ∃ m1, copy_down s.mem
        (get_num_copies (usage s.mem - (offset_of s.mem k + slot s.mem k))).toNat
        (usage s.mem - 4) (usage s.mem - 3) = some m1 ∧
      enqueue_byte s (some k) b = some (enqueued s k b m1) := by
  have hge := h.offset_ge k (by omega)
  have hsz := h.size_ge k hk hocc
  have hend := h.end_le_usage k hk hocc
  have hn := get_num_copies_bounds (usage s.mem - (offset_of s.mem k + slot s.mem k)) (by omega)
  obtain ⟨m1, hc⟩ := copy_down_some
    (get_num_copies (usage s.mem - (offset_of s.mem k + slot s.mem k))).toNat
    s.mem (usage s.mem - 4) (usage s.mem - 3) (by omega) (fun _ => ⟨by omega, by omega⟩)
  refine ⟨m1, hc, ?_⟩
  rw [enqueue_byte_eq s h k hk hocc (by omega), hc]
  rfl

/-- A `dequeue_byte` whose word copies run past the end of the array is undefined. -/
theorem dequeue_byte_none (s : Arena) (h : WellFormed s.mem) (k : Nat) (hk : k < 64)
    (hocc : slot s.mem k ≠ -1) (hB : usage s.mem ≤ 2048)
    (hn : 0 < (get_num_copies (usage s.mem - offset_of s.mem k - 1)).toNat)
    (hover : 2048 < offset_of s.mem k + 1 +
      4 * ((get_num_copies (usage s.mem - offset_of s.mem k - 1)).toNat : Int)) :
    dequeue_byte s (some k) = none := by
  rw [dequeue_byte_eq s h k hk hocc hB, copy_up_none _ _ _ _ hn hover]
  rfl

theorem create_many_fresh (n : Nat) : ∀ (s : Arena) (k : Nat), k + n ≤ 64 → WellFormed s.mem →
    (∀ i, i < 64 → slot s.mem i = if i < k then 3 else -1) →
    usage s.mem = 130 + 3 * (k : Int) →
    ∃ s1, create_many s n = some ((List.range' k n).map some, s1) ∧ WellFormed s1.mem ∧
      (∀ i, i < 64 → slot s1.mem i = if i < k + n then 3 else -1) ∧
      usage s1.mem = 130 + 3 * ((k + n : Nat) : Int) ∧ s1.log = s.log := by
  induction n with
  | zero =>
    intro s k _ h hsl hus
    exact ⟨s, rfl, h, hsl, hus, rfl⟩
  | succ n ih =>
    intro s k hk h hsl hus
    have hocc : ∀ j, j < k → slot s.mem j ≠ -1 := by
      intro j hj; rw [hsl j (by omega), if_pos hj]; omega
    have hun : slot s.mem k = -1 := by rw [hsl k (by omega), if_neg (by omega)]
    obtain ⟨m1, _, hc⟩ := create_queue_some s h k (by omega) hocc hun (by omega)
    obtain ⟨_, hsl1, hus1, hwf1, hlog1⟩ :=
      create_queue_table s _ _ h k (by omega) hocc hun (by omega) hc
    have hsl1b : ∀ i, i < 64 → slot (created s k m1).mem i = if i < k + 1 then 3 else -1 := by
      intro i hi
      rw [hsl1 i hi]
      by_cases hik : i = k
      · rw [if_pos hik, if_pos (by omega)]
      · rw [if_neg hik, hsl i hi]
        by_cases hlt : i < k
        · rw [if_pos hlt, if_pos (by omega)]
        · rw [if_neg hlt, if_neg (by omega)]
    obtain ⟨s2, hc2, hwf2, hsl2, hus2, hlog2⟩ :=
      ih (created s k m1) (k + 1) (by omega) hwf1 hsl1b (by rw [hus1, hus]; push_cast; omega)
    have e1 : k + 1 + n = k + (n + 1) := by omega
    rw [e1] at hsl2 hus2
    refine ⟨s2, ?_, hwf2, hsl2, hus2, ?_⟩
    · simp only [create_many, Option.bind_eq_bind]
      rw [hc, Option.some_bind, hc2, Option.some_bind]
      rfl
    · rw [hlog2, hlog1, if_neg (by omega)]

/-! ## Effect of `enqueue_byte` and `dequeue_byte` on the data region -/

theorem contents_shift (m1 m : Mem) (j : Nat) (hs : slot m1 j = slot m j)
    (hd : ∀ i : Int, 0 ≤ i → i < slot m j - 3 →
      m1 (offset_of m1 j + i) = m (offset_of m j + i)) :
    contents m1 j = contents m j := by
  unfold contents
  rw [hs, PADDING_SIZE_eq]
  apply List.map_congr_left
  intro i hi
  have hi2 : i < (slot m j - 3).toNat := List.mem_range.mp hi
  clear hi
  have h0 : (0 : Int) ≤ (i : Int) := Int.ofNat_nonneg i
  exact hd (i : Int) h0 (by omega)

theorem contents_eq_map (m : Mem) (k n : Nat) (h : (slot m k - 3).toNat = n) :
    contents m k = (List.range n).map (fun (j : Nat) => m (offset_of m k + (j : Int))) := by
  unfold contents
  rw [PADDING_SIZE_eq, h]

theorem offset_of_update (m1 m : Mem) (k j : Nat) (hkj : k < j) (hj : j ≤ 64)
    (h : ∀ i, i < 64 → i ≠ k → slot m1 i = slot m i) :
    offset_of m1 j = offset_of m j + (span m1 k - span m k) := by
  unfold offset_of
  rw [occupied_sum_update m1 m k j hkj (fun i hi hik => h i (by omega) hik)]
  omega

theorem WellFormed.offset_mono {m : Mem} (h : WellFormed m) (i j : Nat) (hij : i ≤ j)
    (hj : j ≤ 64) : offset_of m i ≤ offset_of m j := by
  have := h.sum_mono j i hij hj
  unfold offset_of; omega

theorem enqueued_data (s : Arena) (h : WellFormed s.mem) (k : Nat) (hk : k < 64)
    (hocc : slot s.mem k ≠ -1) (b : Byte) (m1 : Mem)
    (hc : copy_down s.mem
      (get_num_copies (usage s.mem - (offset_of s.mem k + slot s.mem k))).toNat
      (usage s.mem - 4) (usage s.mem - 3) = some m1) (x : Int) (hx : 130 ≤ x) :
    (x < offset_of s.mem k + slot s.mem k - 3 ∨ usage s.mem < x →
      (enqueued s k b m1).mem x = s.mem x) ∧
    (x = offset_of s.mem k + slot s.mem k - 3 → (enqueued s k b m1).mem x = b) ∧
    (offset_of s.mem k + slot s.mem k + 1 ≤ x → x ≤ usage s.mem →
      (enqueued s k b m1).mem x = s.mem (x - 1)) := by
  have hend := h.end_le_usage k hk hocc
  have hn := get_num_copies_bounds (usage s.mem - (offset_of s.mem k + slot s.mem k)) (by omega)
  have hv := copy_down_val _ _ _ _ _ (by omega) hc x
  have e : (enqueued s k b m1).mem x =
      write m1 (offset_of s.mem k + slot s.mem k - 3) b x := by
    unfold enqueued
    simp only []
    rw [wr16_slot_data _ _ _ _ hk hx, wr16_usage_data _ _ _ hx]
  rw [e]
  refine ⟨?_, ?_, ?_⟩
  · intro h1
    rw [write_other _ _ _ _ (by omega), hv, if_neg (by omega)]
  · intro h1
    rw [h1]; exact write_same _ _ _
  · intro h1 h2
    have e2 : x - (usage s.mem - 3 - (usage s.mem - 4)) = x - 1 := by omega
    rw [write_other _ _ _ _ (by omega), hv, if_pos (by omega), e2]

theorem dequeued_data (s : Arena) (h : WellFormed s.mem) (k : Nat) (hk : k < 64)
    (hocc : slot s.mem k ≠ -1) (m1 : Mem)
    (hc : copy_up s.mem (get_num_copies (usage s.mem - offset_of s.mem k - 1)).toNat
      (offset_of s.mem k + 1) (offset_of s.mem k) = some m1) (x : Int) (hx : 130 ≤ x) :
    (x < offset_of s.mem k → (dequeued s k m1).mem x = s.mem x) ∧
    (offset_of s.mem k ≤ x → x < usage s.mem - 1 → (dequeued s k m1).mem x = s.mem (x + 1)) := by
  have hend := h.end_le_usage k hk hocc
  have hsz := h.size_ge k hk hocc
  have hn := get_num_copies_bounds (usage s.mem - offset_of s.mem k - 1) (by omega)
  have hv := copy_up_val _ _ _ _ _ (by omega) hc x
  have e : (dequeued s k m1).mem x = m1 x := by
    unfold dequeued
    simp only []
    rw [wr16_slot_data _ _ _ _ hk hx, wr16_usage_data _ _ _ hx]
  rw [e, hv]
  constructor
  · intro h1
    rw [if_neg (by omega)]
  · intro h1 h2
    have e2 : x + (offset_of s.mem k + 1 - offset_of s.mem k) = x + 1 := by omega
    rw [if_pos (by omega), e2]

/-- Single step of `enqueue_byte` on an occupied slot with the usage counter below
`Capacity`: the call completes, reports nothing, appends the byte to the queue, and leaves
every other live queue's contents as they were. -/
theorem enqueue_byte_step (s : Arena) (h : WellFormed s.mem) (k : Nat) (hk : k < 64)
    (hocc : slot s.mem k ≠ -1) (hB : usage s.mem < 2048) (b : Byte) :
    ∃ s1, enqueue_byte s (some k) b = some s1 ∧ WellFormed s1.mem ∧
      (∀ i, i < 64 → slot s1.mem i = if i = k then slot s.mem k + 1 else slot s.mem i) ∧
      usage s1.mem = usage s.mem + 1 ∧ s1.log = s.log ∧
      contents s1.mem k = contents s.mem k ++ [b] ∧
      (∀ j, j < 64 → j ≠ k → slot s.mem j ≠ -1 → contents s1.mem j = contents s.mem j) := by
  obtain ⟨m1, hc, he⟩ := enqueue_byte_some s h k hk hocc hB b
  obtain ⟨hsl, hus, hwf, hlog⟩ := enqueue_byte_table s _ h k b hk hocc hB he
  have hsz := h.size_ge k hk hocc
  have hge := h.offset_ge k (by omega)
  have hend := h.end_le_usage k hk hocc
  have hkk : slot (enqueued s k b m1).mem k = slot s.mem k + 1 := by rw [hsl k hk, if_pos rfl]
  have hoffk : offset_of (enqueued s k b m1).mem k = offset_of s.mem k :=
    offset_of_congr _ _ k (fun i hi => by rw [hsl i (by omega), if_neg (by omega)])
  refine ⟨_, he, hwf, hsl, hus, hlog, ?_, ?_⟩
  · have hn1 : (slot (enqueued s k b m1).mem k - 3).toNat = (slot s.mem k - 3).toNat + 1 := by
      rw [hkk]; omega
    have e1 : (List.range (slot s.mem k - 3).toNat).map
          (fun (j : Nat) => (enqueued s k b m1).mem (offset_of s.mem k + (j : Int))) =
        (List.range (slot s.mem k - 3).toNat).map
          (fun (j : Nat) => s.mem (offset_of s.mem k + (j : Int))) := by
      apply List.map_congr_left
      intro i hi
      have hi2 : i < (slot s.mem k - 3).toNat := List.mem_range.mp hi
      clear hi
      exact (enqueued_data s h k hk hocc b m1 hc _ (by omega)).1 (Or.inl (by omega))
    have e2 := (enqueued_data s h k hk hocc b m1 hc
      (offset_of s.mem k + (((slot s.mem k - 3).toNat : Nat) : Int)) (by omega)).2.1 (by omega)
    rw [contents_eq_map _ k _ hn1, contents_eq_map s.mem k _ rfl, List.range_succ,
      List.map_append, List.map_singleton, hoffk, e1, e2]
  · intro j hj hjk hoccj
    have hszj := h.size_ge j hj hoccj
    have hgej := h.offset_ge j (by omega)
    have hendj := h.end_le_usage j hj hoccj
    apply contents_shift _ _ j (by rw [hsl j hj, if_neg hjk])
    intro i hi0 hi1
    by_cases hlt : j < k
    · have ho : offset_of (enqueued s k b m1).mem j = offset_of s.mem j :=
        offset_of_congr _ _ j (fun i hi => by rw [hsl i (by omega), if_neg (by omega)])
      have hm := h.offset_mono (j + 1) k (by omega) (by omega)
      rw [offset_of_succ, span_def, if_neg hoccj] at hm
      rw [ho]
      exact (enqueued_data s h k hk hocc b m1 hc _ (by omega)).1 (Or.inl (by omega))
    · have ho : offset_of (enqueued s k b m1).mem j = offset_of s.mem j + 1 := by
        rw [offset_of_update (enqueued s k b m1).mem s.mem k j (by omega) (by omega)
          (fun i hi hik => by rw [hsl i hi, if_neg hik]), span_def, span_def, hkk,
          if_neg (by omega), if_neg hocc]
        omega
      have hm := h.offset_mono (k + 1) j (by omega) (by omega)
      rw [offset_of_succ, span_def, if_neg hocc] at hm
      rw [ho, (enqueued_data s h k hk hocc b m1 hc _ (by omega)).2.2 (by omega) (by omega)]
      have e2 : offset_of s.mem j + 1 + i - 1 = offset_of s.mem j + i := by omega
      rw [e2]

/-- Completion of `dequeue_byte`: on an occupied slot it completes whenever the usage counter
is at most `Capacity - 3`. -/
theorem dequeue_byte_some (s : Arena) (h : WellFormed s.mem) (k : Nat) (hk : k < 64)
    (hocc : slot s.mem k ≠ -1) (hB : usage s.mem ≤ 2045) :
    ∃ m1, copy_up s.mem (get_num_copies (usage s.mem - offset_of s.mem k - 1)).toNat
        (offset_of s.mem k + 1) (offset_of s.mem k) = some m1 ∧
      dequeue_byte s (some k) = some (s.mem (offset_of s.mem k), dequeued s k m1) := by
  have hge := h.offset_ge k (by omega)
  have hend := h.end_le_usage k hk hocc
  have hsz := h.size_ge k hk hocc
  have hn := get_num_copies_bounds (usage s.mem - offset_of s.mem k - 1) (by omega)
  obtain ⟨m1, hc⟩ := copy_up_some
    (get_num_copies (usage s.mem - offset_of s.mem k - 1)).toNat
    s.mem (offset_of s.mem k + 1) (offset_of s.mem k) (by omega)
    (fun _ => ⟨by omega, by omega⟩)
  refine ⟨m1, hc, ?_⟩
  rw [dequeue_byte_eq s h k hk hocc (by omega), hc]
  rfl

/-- Effect of a completed `dequeue_byte` on a non-empty queue: it reports nothing, returns
the first byte of the queue, leaves the rest of it in order, and leaves every other live
queue's contents as they were. -/
theorem dequeue_byte_effect (s s1 : Arena) (r : Byte) (h : WellFormed s.mem) (k : Nat)
    (hk : k < 64) (hne : 3 < slot s.mem k) (hB : usage s.mem ≤ 2048)
    (he : dequeue_byte s (some k) = some (r, s1)) :
    WellFormed s1.mem ∧
      (∀ i, i < 64 → slot s1.mem i = if i = k then slot s.mem k - 1 else slot s.mem i) ∧
      usage s1.mem = usage s.mem - 1 ∧ s1.log = s.log ∧
      contents s.mem k = r :: contents s1.mem k ∧
      (∀ j, j < 64 → j ≠ k → slot s.mem j ≠ -1 → contents s1.mem j = contents s.mem j) := by
  have hocc : slot s.mem k ≠ -1 := by omega
  obtain ⟨hr, hsl, hus, hlog⟩ := dequeue_byte_table s _ _ h k hk hocc hB he
  have hwf := dequeue_byte_wellFormed s _ _ h k hk hne hB he
  rw [dequeue_byte_eq s h k hk hocc hB, Option.map_eq_some'] at he
  obtain ⟨m1, hc, he2⟩ := he
  obtain ⟨_, hs1⟩ := Prod.mk.inj he2
  subst hs1
  subst hr
  have hge := h.offset_ge k (by omega)
  have hend := h.end_le_usage k hk hocc
  have hkk : slot (dequeued s k m1).mem k = slot s.mem k - 1 := by rw [hsl k hk, if_pos rfl]
  have hoffk : offset_of (dequeued s k m1).mem k = offset_of s.mem k :=
    offset_of_congr _ _ k (fun i hi => by rw [hsl i (by omega), if_neg (by omega)])
  rw [if_neg (by omega)] at hlog
  refine ⟨hwf, hsl, hus, hlog, ?_, ?_⟩
  · have hn1 : (slot s.mem k - 3).toNat = (slot (dequeued s k m1).mem k - 3).toNat + 1 := by
      rw [hkk]; omega
    have e1 : (List.range (slot (dequeued s k m1).mem k - 3).toNat).map
          ((fun (j : Nat) => s.mem (offset_of s.mem k + (j : Int))) ∘ Nat.succ) =
        (List.range (slot (dequeued s k m1).mem k - 3).toNat).map
          (fun (j : Nat) => (dequeued s k m1).mem (offset_of s.mem k + (j : Int))) := by
      apply List.map_congr_left
      intro i hi
      have hi2 : i < (slot (dequeued s k m1).mem k - 3).toNat := List.mem_range.mp hi
      clear hi
      rw [hkk] at hi2
      have e := (dequeued_data s h k hk hocc m1 hc (offset_of s.mem k + (i : Int))
        (by omega)).2 (by omega) (by omega)
      rw [e]
      show s.mem (offset_of s.mem k + ((i + 1 : Nat) : Int)) = _
      have e2 : offset_of s.mem k + ((i + 1 : Nat) : Int) = offset_of s.mem k + (i : Int) + 1 := by
        push_cast; omega
      rw [e2]
    rw [contents_eq_map s.mem k _ hn1, contents_eq_map _ k _ rfl, List.range_succ_eq_map,
      List.map_cons, List.map_map, hoffk, e1]
    simp
  · intro j hj hjk hoccj
    have hszj := h.size_ge j hj hoccj
    have hgej := h.offset_ge j (by omega)
    have hendj := h.end_le_usage j hj hoccj
    apply contents_shift _ _ j (by rw [hsl j hj, if_neg hjk])
    intro i hi0 hi1
    by_cases hlt : j < k
    · have ho : offset_of (dequeued s k m1).mem j = offset_of s.mem j :=
        offset_of_congr _ _ j (fun i hi => by rw [hsl i (by omega), if_neg (by omega)])
      have hm := h.offset_mono (j + 1) k (by omega) (by omega)
      rw [offset_of_succ, span_def, if_neg hoccj] at hm
      rw [ho]
      exact (dequeued_data s h k hk hocc m1 hc _ (by omega)).1 (by omega)
    · have ho : offset_of (dequeued s k m1).mem j = offset_of s.mem j - 1 := by
        rw [offset_of_update (dequeued s k m1).mem s.mem k j (by omega) (by omega)
          (fun i hi hik => by rw [hsl i hi, if_neg hik]), span_def, span_def, hkk,
          if_neg (by omega), if_neg hocc]
        omega
      have hm := h.offset_mono (k + 1) j (by omega) (by omega)
      rw [offset_of_succ, span_def, if_neg hocc] at hm
      rw [ho, (dequeued_data s h k hk hocc m1 hc _ (by omega)).2 (by omega) (by omega)]
      have e2 : offset_of s.mem j - 1 + i + 1 = offset_of s.mem j + i := by omega
      rw [e2]

/-- Single step of `dequeue_byte` on a non-empty queue with the usage counter at most
`Capacity - 3`: the call completes, with the effect of a completed call. -/
theorem dequeue_byte_step (s : Arena) (h : WellFormed s.mem) (k : Nat) (hk : k < 64)
    (hne : 3 < slot s.mem k) (hB : usage s.mem ≤ 2045) :
    ∃ r s1, dequeue_byte s (some k) = some (r, s1) ∧ WellFormed s1.mem ∧
      (∀ i, i < 64 → slot s1.mem i = if i = k then slot s.mem k - 1 else slot s.mem i) ∧
      usage s1.mem = usage s.mem - 1 ∧ s1.log = s.log ∧
      contents s.mem k = r :: contents s1.mem k ∧
      (∀ j, j < 64 → j ≠ k → slot s.mem j ≠ -1 → contents s1.mem j = contents s.mem j) := by
  obtain ⟨m1, _, he⟩ := dequeue_byte_some s h k hk (by omega) hB
  exact ⟨_, _, he, dequeue_byte_effect s _ _ h k hk hne (by omega) he⟩

theorem contents_empty (m : Mem) (k : Nat) (h : slot m k = 3) : contents m k = [] := by
  rw [contents_eq_map m k 0 (by rw [h]; rfl)]
  rfl

theorem contents_length (m : Mem) (k : Nat) : (contents m k).length = (slot m k - 3).toNat := by
  rw [contents_eq_map m k _ rfl, List.length_map, List.length_range]

theorem enqueue_all_contents (bs : List Byte) : ∀ (s : Arena), WellFormed s.mem →
    ∀ (k : Nat), k < 64 → slot s.mem k ≠ -1 → usage s.mem + (bs.length : Int) ≤ 2048 →
    ∃ s1, enqueue_all s (some k) bs = some s1 ∧ WellFormed s1.mem ∧
      (∀ i, i < 64 →
        slot s1.mem i = if i = k then slot s.mem k + (bs.length : Int) else slot s.mem i) ∧
      usage s1.mem = usage s.mem + (bs.length : Int) ∧ s1.log = s.log ∧
      contents s1.mem k = contents s.mem k ++ bs ∧
      (∀ j, j < 64 → j ≠ k → slot s.mem j ≠ -1 → contents s1.mem j = contents s.mem j) := by
  induction bs with
  | nil =>
    intro s h k _ _ _
    refine ⟨s, rfl, h, ?_, by simp, rfl, by simp, fun _ _ _ _ => rfl⟩
    intro i _
    by_cases hik : i = k
    · rw [if_pos hik, hik]; simp
    · rw [if_neg hik]
  | cons b bs ih =>
    intro s h k hk hocc hB
    have hlen : (((b :: bs).length : Nat) : Int) = (bs.length : Int) + 1 := by
      simp [List.length_cons]
    rw [hlen] at hB ⊢
    have h0 : (0 : Int) ≤ (bs.length : Int) := Int.ofNat_nonneg _
    obtain ⟨s1, he, hwf, hsl, hus, hlog, hck, hoth⟩ :=
      enqueue_byte_step s h k hk hocc (by omega) b
    have hsz := h.size_ge k hk hocc
    have hk1 : slot s1.mem k = slot s.mem k + 1 := by rw [hsl k hk, if_pos rfl]
    obtain ⟨s2, he2, hwf2, hsl2, hus2, hlog2, hck2, hoth2⟩ :=
      ih s1 hwf k hk (by rw [hk1]; omega) (by rw [hus]; omega)
    refine ⟨s2, ?_, hwf2, ?_, by rw [hus2, hus]; omega, by rw [hlog2, hlog],
      by rw [hck2, hck]; simp, ?_⟩
    · simp only [enqueue_all, Option.bind_eq_bind]
      rw [he, Option.some_bind, he2]
    · intro i hi
      rw [hsl2 i hi]
      by_cases hik : i = k
      · rw [if_pos hik, if_pos hik, hk1]; omega
      · rw [if_neg hik, if_neg hik, hsl i hi, if_neg hik]
    · intro j hj hjk hoccj
      rw [hoth2 j hj hjk (by rw [hsl j hj, if_neg hjk]; exact hoccj), hoth j hj hjk hoccj]

theorem dequeue_n_contents (k : Nat) (hk : k < 64) (n : Nat) : ∀ (s : Arena),
    WellFormed s.mem → 3 + (n : Int) ≤ slot s.mem k → usage s.mem ≤ 2045 →
    ∃ s2, dequeue_n s (some k) n = some ((contents s.mem k).take n, s2) ∧ s2.log = s.log := by
  induction n with
  | zero => intro s _ _ _; exact ⟨s, rfl, rfl⟩
  | succ n ih =>
    intro s h hsz hB
    push_cast at hsz
    have h0 : (0 : Int) ≤ (n : Int) := Int.ofNat_nonneg _
    obtain ⟨r, s1, hd, hwf, hsl, hus, hlog, hck, _⟩ :=
      dequeue_byte_step s h k hk (by omega) hB
    have hk1 : slot s1.mem k = slot s.mem k - 1 := by rw [hsl k hk, if_pos rfl]
    obtain ⟨s2, hd2, hlog2⟩ := ih s1 hwf (by rw [hk1]; omega) (by rw [hus]; omega)
    refine ⟨s2, ?_, by rw [hlog2, hlog]⟩
    simp only [dequeue_n, Option.bind_eq_bind]
    rw [hd, Option.some_bind, hd2, Option.some_bind, hck, List.take_succ_cons]

/-- FIFO round trip below the capacity boundary: in a well-formed arena, bytes enqueued to
an empty queue while the usage counter stays at most `Capacity - 3` are returned by as many
calls of `dequeue_byte`, in the same order, and no failure is reported. -/
theorem round_trip_within_margin (s : Arena) (h : WellFormed s.mem) (k : Nat)
    (hk : k < MAX_QUEUES) (hempty : slot s.mem k = PADDING_SIZE) (bs : List Byte)
    (hB : usage s.mem + (bs.length : Int) ≤ DATA_ARRAY_SIZE - PADDING_SIZE) :
    ∃ s1 s2, enqueue_all s (some k) bs = some s1 ∧
      dequeue_n s1 (some k) bs.length = some (bs, s2) ∧ s2.log = s.log := by
  have hk2 : k < 64 := hk
  have he3 : slot s.mem k = 3 := hempty
  have hB2 : usage s.mem + (bs.length : Int) ≤ 2045 := hB
  obtain ⟨s1, he, hwf1, hsl1, hus1, hlog1, hc1, _⟩ :=
    enqueue_all_contents bs s h k hk2 (by omega) (by omega)
  have hk1 : slot s1.mem k = slot s.mem k + (bs.length : Int) := by rw [hsl1 k hk2, if_pos rfl]
  obtain ⟨s2, hd, hlog2⟩ := dequeue_n_contents k hk2 bs.length s1 hwf1 (by omega) (by omega)
  rw [contents_empty s.mem k he3, List.nil_append] at hc1
  rw [hc1, List.take_length] at hd
  exact ⟨s1, s2, he, hd, by rw [hlog2, hlog1]⟩

/-- Isolation for completed calls: along any interleaving of calls on two distinct live
queues `a` and `b`, each call with its precondition and completing, the bytes the dequeues
on `b` returned, followed by what `b` still holds, are `b`'s initial contents followed by
the bytes enqueued to `b`. -/
theorem isolation_of_completed_calls (s : Arena) (h : WellFormed s.mem) (a b : Nat)
    (ha : a < MAX_QUEUES) (hb : b < MAX_QUEUES) (hab : a ≠ b)
    (hoa : slot s.mem a ≠ UNUSED_QUEUE) (hob : slot s.mem b ≠ UNUSED_QUEUE)
    (hB : usage s.mem ≤ DATA_ARRAY_SIZE)
    (ins outs : List Byte) (s1 : Arena) (hi : Interleaved a b s ins outs s1) :
    outs ++ contents s1.mem b = contents s.mem b ++ ins := by
  have ha2 : a < 64 := ha
  have hb2 : b < 64 := hb
  have key : WellFormed s1.mem ∧ slot s1.mem a ≠ -1 ∧ slot s1.mem b ≠ -1 ∧
      usage s1.mem ≤ 2048 ∧ outs ++ contents s1.mem b = contents s.mem b ++ ins := by
    induction hi with
    | start => exact ⟨h, hoa, hob, hB, by simp⟩
    | enqueue_a ins outs s1 s2 x _ hpre hc ih =>
      obtain ⟨hwf, hsa, hsb, hus, hct⟩ := ih
      have hpre2 : usage s1.mem < 2048 := hpre
      obtain ⟨s3, he, hwf3, hsl3, hus3, _, _, hothers⟩ :=
        enqueue_byte_step s1 hwf a ha2 hsa hpre2 x
      have e : s3 = s2 := Option.some.inj (he.symm.trans hc)
      subst e
      have hsza := hwf.size_ge a ha2 hsa
      refine ⟨hwf3, by rw [hsl3 a ha2, if_pos rfl]; omega,
        by rw [hsl3 b hb2, if_neg (Ne.symm hab)]; exact hsb, by omega, ?_⟩
      rw [hothers b hb2 (Ne.symm hab) hsb]
      exact hct
    | enqueue_b ins outs s1 s2 x _ hpre hc ih =>
      obtain ⟨hwf, hsa, hsb, hus, hct⟩ := ih
      have hpre2 : usage s1.mem < 2048 := hpre
      obtain ⟨s3, he, hwf3, hsl3, hus3, _, hcb, _⟩ :=
        enqueue_byte_step s1 hwf b hb2 hsb hpre2 x
      have e : s3 = s2 := Option.some.inj (he.symm.trans hc)
      subst e
      have hszb := hwf.size_ge b hb2 hsb
      refine ⟨hwf3, by rw [hsl3 a ha2, if_neg hab]; exact hsa,
        by rw [hsl3 b hb2, if_pos rfl]; omega, by omega, ?_⟩
      rw [hcb, ← List.append_assoc, hct, List.append_assoc]
    | dequeue_a ins outs s1 s2 r _ hpre hc ih =>
      obtain ⟨hwf, hsa, hsb, hus, hct⟩ := ih
      have hpre2 : 3 < slot s1.mem a := hpre
      obtain ⟨hwf3, hsl3, hus3, _, _, hothers⟩ :=
        dequeue_byte_effect s1 s2 r hwf a ha2 hpre2 hus hc
      refine ⟨hwf3, by rw [hsl3 a ha2, if_pos rfl]; omega,
        by rw [hsl3 b hb2, if_neg (Ne.symm hab)]; exact hsb, by omega, ?_⟩
      rw [hothers b hb2 (Ne.symm hab) hsb]
      exact hct
    | dequeue_b ins outs s1 s2 r _ hpre hc ih =>
      obtain ⟨hwf, hsa, hsb, hus, hct⟩ := ih
      have hpre2 : 3 < slot s1.mem b := hpre
      obtain ⟨hwf3, hsl3, hus3, _, hcb, _⟩ :=
        dequeue_byte_effect s1 s2 r hwf b hb2 hpre2 hus hc
      refine ⟨hwf3, by rw [hsl3 a ha2, if_neg hab]; exact hsa,
        by rw [hsl3 b hb2, if_pos rfl]; omega, by omega, ?_⟩
      rw [← hct, hcb]
      simp
  exact key.2.2.2.2

/-- After `initialize_data` and one `create_queue`, 1915 calls of `enqueue_byte` on the new
queue are all accepted and bring the usage counter to `Capacity`. -/
theorem fill_single_queue (b : Byte) :
    ∃ s0 s1, create_queue (initialize_data boot) = some (some 0, s0) ∧
      WellFormed s0.mem ∧ slot s0.mem 0 = 3 ∧ usage s0.mem = 133 ∧
      enqueue_all s0 (some 0) (List.replicate 1915 b) = some s1 ∧
      WellFormed s1.mem ∧ slot s1.mem 0 = 1918 ∧ usage s1.mem = 2048 ∧ s1.log = [] ∧
      contents s1.mem 0 = List.replicate 1915 b := by
  have hwf := initialize_data_wellFormed boot
  have hus := initialize_data_usage boot
  obtain ⟨m1, _, hc⟩ := create_queue_some (initialize_data boot) hwf 0 (by omega)
    (fun j hj => by omega) (initialize_data_slot boot 0 (by omega)) (by omega)
  obtain ⟨_, hsl0, hus0, hwf0, hlog0⟩ := create_queue_table _ _ _ hwf 0 (by omega)
    (fun j hj => by omega) (initialize_data_slot boot 0 (by omega)) (by omega) hc
  have hk0 : slot (created (initialize_data boot) 0 m1).mem 0 = 3 := by
    rw [hsl0 0 (by omega), if_pos rfl]
  rw [hus] at hus0
  rw [if_neg (by omega)] at hlog0
  obtain ⟨s1, he, hwf1, hsl1, hus1, hlog1, hct1, _⟩ :=
    enqueue_all_contents (List.replicate 1915 b) _ hwf0 0 (by omega) (by rw [hk0]; omega)
      (by rw [hus0, List.length_replicate]; norm_num)
  rw [List.length_replicate] at hsl1 hus1
  rw [contents_empty _ 0 hk0, List.nil_append] at hct1
  refine ⟨_, s1, hc, hwf0, hk0, by rw [hus0]; norm_num, he, hwf1, ?_, ?_, ?_, hct1⟩
  · rw [hsl1 0 (by omega), if_pos rfl, hk0]; norm_num
  · rw [hus1, hus0]; norm_num
  · rw [hlog1, hlog0]; rfl

theorem dequeue_n_none (s : Arena) (q : Option Nat) (n : Nat) (h : dequeue_byte s q = none) :
    dequeue_n s q (n + 1) = none := by
  simp only [dequeue_n, Option.bind_eq_bind, h]
  rfl

set_option maxRecDepth 1000000 in
theorem sample_created_eq : create_queue (initialize_data boot) = some (some 0, sample_created) := by
  rfl

set_option maxRecDepth 1000000 in
theorem sample_enqueued_eq : enqueue_byte sample_created (some 0) 7 = some sample_enqueued := by
  rfl

set_option maxRecDepth 1000000 in
theorem sample_enqueued_reachable : Reachable sample_enqueued :=
  Reachable.enqueue sample_created sample_enqueued 0 7
    (Reachable.create (initialize_data boot) sample_created (some 0) (Reachable.init boot)
      (by decide) sample_created_eq)
    (by decide) (by decide) (by decide) sample_enqueued_eq

/-! ## Filling the arena -/

/-- After `initialize_data`, whatever the buffer held, and one `create_queue`, any 1915
bytes are accepted by `enqueue_byte` on the new queue and bring the usage counter to
`Capacity`. -/
theorem fill_queue (s : Arena) (bs : List Byte) (hlen : bs.length = 1915) :
    ∃ s0 s1, create_queue (initialize_data s) = some (some 0, s0) ∧
      WellFormed s0.mem ∧ slot s0.mem 0 = 3 ∧ usage s0.mem = 133 ∧ s0.log = s.log ∧
      (∀ i, 0 < i → i < 64 → slot s0.mem i = -1) ∧
      enqueue_all s0 (some 0) bs = some s1 ∧
      WellFormed s1.mem ∧ slot s1.mem 0 = 1918 ∧ usage s1.mem = 2048 ∧ s1.log = s.log ∧
      (∀ i, 0 < i → i < 64 → slot s1.mem i = -1) ∧
      contents s1.mem 0 = bs := by
  have hwf := initialize_data_wellFormed s
  have hus := initialize_data_usage s
  obtain ⟨m1, _, hc⟩ := create_queue_some (initialize_data s) hwf 0 (by omega)
    (fun j hj => by omega) (initialize_data_slot s 0 (by omega)) (by omega)
  obtain ⟨_, hsl0, hus0, hwf0, hlog0⟩ := create_queue_table _ _ _ hwf 0 (by omega)
    (fun j hj => by omega) (initialize_data_slot s 0 (by omega)) (by omega) hc
  have hk0 : slot (created (initialize_data s) 0 m1).mem 0 = 3 := by
    rw [hsl0 0 (by omega), if_pos rfl]
  have hrest0 : ∀ i, 0 < i → i < 64 → slot (created (initialize_data s) 0 m1).mem i = -1 := by
    intro i hi0 hi
    rw [hsl0 i hi, if_neg (by omega), initialize_data_slot s i hi]
  rw [hus] at hus0
  rw [if_neg (by omega)] at hlog0
  obtain ⟨s1, he, hwf1, hsl1, hus1, hlog1, hct1, _⟩ :=
    enqueue_all_contents bs _ hwf0 0 (by omega) (by rw [hk0]; omega)
      (by rw [hus0, hlen]; norm_num)
  rw [hlen] at hsl1 hus1
  rw [contents_empty _ 0 hk0, List.nil_append] at hct1
  refine ⟨_, s1, hc, hwf0, hk0, by rw [hus0]; norm_num, hlog0, hrest0, he, hwf1, ?_, ?_, ?_,
    ?_, hct1⟩
  · rw [hsl1 0 (by omega), if_pos rfl, hk0]; norm_num
  · rw [hus1, hus0]; norm_num
  · rw [hlog1, hlog0]; rfl
  · intro i hi0 hi
    rw [hsl1 i hi, if_neg (by omega)]
    exact hrest0 i hi0 hi

/-- A run of accepted `enqueue_byte` calls on an occupied slot keeps the state reachable. -/
theorem reachable_enqueue_all (bs : List Byte) : ∀ (s s1 : Arena), Reachable s →
    ∀ (k : Nat), k < 64 → slot s.mem k ≠ -1 → usage s.mem + (bs.length : Int) ≤ 2048 →
    enqueue_all s (some k) bs = some s1 → Reachable s1 := by
  induction bs with
  | nil =>
    intro s s1 hr k _ _ _ he
    have e : s = s1 := Option.some.inj he
    rw [← e]; exact hr
  | cons b bs ih =>
    intro s s1 hr k hk hocc hB he
    have hlen : (((b :: bs).length : Nat) : Int) = (bs.length : Int) + 1 := by
      simp [List.length_cons]
    rw [hlen] at hB
    have h0 : (0 : Int) ≤ (bs.length : Int) := Int.ofNat_nonneg _
    have hwf := (reachable_invariant s hr).1
    obtain ⟨s2, he2, _, hsl, hus, _, _, _⟩ := enqueue_byte_step s hwf k hk hocc (by omega) b
    have hsz := hwf.size_ge k hk hocc
    simp only [enqueue_all, Option.bind_eq_bind] at he
    rw [he2, Option.some_bind] at he
    have hr2 : Reachable s2 :=
      Reachable.enqueue s s2 k b hr hk hocc (by show usage s.mem < 2048; omega) he2
    exact ih s2 s1 hr2 k hk (by rw [hsl k hk, if_pos rfl]; omega) (by rw [hus]; omega) he

/-- After `initialize_data`, whatever the buffer held, two `create_queue` calls take slots 0
and 1 and leave two empty queues. -/
theorem fresh_pair (s : Arena) :
    ∃ s0 s1, create_queue (initialize_data s) = some (some 0, s0) ∧
      create_queue s0 = some (some 1, s1) ∧ Reachable s1 ∧ WellFormed s1.mem ∧
      slot s1.mem 0 = 3 ∧ slot s1.mem 1 = 3 ∧ usage s1.mem = 136 ∧ s1.log = s.log := by
  have hwf := initialize_data_wellFormed s
  have hus := initialize_data_usage s
  have hun := initialize_data_slot s
  obtain ⟨m0, _, hc0⟩ := create_queue_some (initialize_data s) hwf 0 (by omega)
    (fun j hj => by omega) (hun 0 (by omega)) (by omega)
  obtain ⟨_, hsl0, hus0, hwf0, hlog0⟩ := create_queue_table _ _ _ hwf 0 (by omega)
    (fun j hj => by omega) (hun 0 (by omega)) (by omega) hc0
  rw [hus] at hus0
  rw [if_neg (by omega)] at hlog0
  have hr0 : Reachable (created (initialize_data s) 0 m0) :=
    Reachable.create _ _ _ (Reachable.init s)
      (by show usage (initialize_data s).mem ≤ 2043; omega) hc0
  have h00 : slot (created (initialize_data s) 0 m0).mem 0 = 3 := by
    rw [hsl0 0 (by omega), if_pos rfl]
  have h01 : slot (created (initialize_data s) 0 m0).mem 1 = -1 := by
    rw [hsl0 1 (by omega), if_neg (by omega), hun 1 (by omega)]
  have hocc1 : ∀ j, j < 1 → slot (created (initialize_data s) 0 m0).mem j ≠ -1 := by
    intro j hj
    have : j = 0 := by omega
    rw [this, h00]; omega
  obtain ⟨m1, _, hc1⟩ := create_queue_some _ hwf0 1 (by omega) hocc1 h01 (by omega)
  obtain ⟨_, hsl1, hus1, hwf1, hlog1⟩ := create_queue_table _ _ _ hwf0 1 (by omega)
    hocc1 h01 (by omega) hc1
  rw [hus0] at hus1
  rw [if_neg (by omega), hlog0] at hlog1
  have hr1 : Reachable (created (created (initialize_data s) 0 m0) 1 m1) :=
    Reachable.create _ _ _ hr0
      (by show usage (created (initialize_data s) 0 m0).mem ≤ 2043; omega) hc1
  refine ⟨_, _, hc0, hc1, hr1, hwf1, ?_, ?_, by rw [hus1]; norm_num, by rw [hlog1]; rfl⟩
  · rw [hsl1 0 (by omega), if_neg (by omega), h00]
  · rw [hsl1 1 (by omega), if_pos rfl]

/-- A `destroy_queue` whose word copies run past the end of the array is undefined. -/
theorem destroy_queue_none (s : Arena) (h : WellFormed s.mem) (k : Nat) (hk : k < 64)
    (hocc : slot s.mem k ≠ -1)
    (hn : 0 < (get_num_copies (usage s.mem - offset_of s.mem k - slot s.mem k)).toNat)
    (hover : 2048 < offset_of s.mem k + slot s.mem k +
      4 * ((get_num_copies (usage s.mem - offset_of s.mem k - slot s.mem k)).toNat : Int)) :
    destroy_queue s (some k) = none := by
  rw [destroy_queue_eq s h k hk hocc, copy_up_none _ _ _ _ hn hover]
  rfl

/-! ## Single steps of `create_queue` and `destroy_queue` -/

/-- Single step of `create_queue` with the usage counter at most `Capacity - OVERHEAD`:
the call completes, takes the lowest unused slot with an empty queue, and leaves every live
queue's contents as they were, read at its new derived offset. -/
theorem create_queue_step (s : Arena) (h : WellFormed s.mem) (k : Nat) (hk : k < 64)
    (hocc : ∀ j, j < k → slot s.mem j ≠ -1) (hun : slot s.mem k = -1)
    (hB : usage s.mem ≤ 2045) :
    ∃ s1, create_queue s = some (some k, s1) ∧ WellFormed s1.mem ∧
      (∀ i, i < 64 → slot s1.mem i = if i = k then 3 else slot s.mem i) ∧
      usage s1.mem = usage s.mem + 3 ∧
      s1.log = (if 2043 ≤ usage s.mem then s.log ++ [Failure.OutOfMemory] else s.log) ∧
      contents s1.mem k = [] ∧
      (∀ j, j < 64 → slot s.mem j ≠ -1 → contents s1.mem j = contents s.mem j) := by
  obtain ⟨m1, hcp, hc⟩ := create_queue_some s h k hk hocc hun hB
  obtain ⟨_, hsl, hus, hwf, hlog⟩ := create_queue_table s _ _ h k hk hocc hun (by omega) hc
  have hkk : slot (created s k m1).mem k = 3 := by rw [hsl k hk, if_pos rfl]
  have hgek := h.offset_ge k (by omega)
  refine ⟨_, hc, hwf, hsl, hus, hlog, contents_empty _ k hkk, ?_⟩
  intro j hj hoccj
  have hjk : j ≠ k := by
    intro e; rw [e] at hoccj; exact hoccj hun
  have hszj := h.size_ge j hj hoccj
  have hgej := h.offset_ge j (by omega)
  have hendj := h.end_le_usage j hj hoccj
  apply contents_shift _ _ j (by rw [hsl j hj, if_neg hjk])
  intro i hi0 hi1
  by_cases hlt : j < k
  · have ho : offset_of (created s k m1).mem j = offset_of s.mem j :=
      offset_of_congr _ _ j (fun i hi => by rw [hsl i (by omega), if_neg (by omega)])
    have hm := h.offset_mono (j + 1) k (by omega) (by omega)
    rw [offset_of_succ, span_def, if_neg hoccj] at hm
    rw [ho]
    exact (created_data s h k hk m1 hcp _ (by omega)).1 (Or.inl (by omega))
  · have ho : offset_of (created s k m1).mem j = offset_of s.mem j + 3 := by
      rw [offset_of_update (created s k m1).mem s.mem k j (by omega) (by omega)
        (fun i hi hik => by rw [hsl i hi, if_neg hik]), span_def, span_def, hkk,
        if_neg (by omega), if_pos hun]
      omega
    have hm := h.offset_mono (k + 1) j (by omega) (by omega)
    rw [offset_of_succ, span_def, if_pos hun] at hm
    rw [ho, (created_data s h k hk m1 hcp _ (by omega)).2 (by omega) (by omega)]
    have e2 : offset_of s.mem j + 3 + i - 3 = offset_of s.mem j + i := by omega
    rw [e2]

/-- Single step of `destroy_queue` on an occupied slot with the usage counter at most
`Capacity - 3`: the call completes, reports nothing, frees the slot, lowers the usage
counter by the slot's size, and leaves every other live queue's size and contents as they
were, read at its new derived offset. -/
theorem destroy_queue_step (s : Arena) (h : WellFormed s.mem) (k : Nat) (hk : k < 64)
    (hocc : slot s.mem k ≠ -1) (hB : usage s.mem ≤ 2045) :
    ∃ s1, destroy_queue s (some k) = some s1 ∧ WellFormed s1.mem ∧
      (∀ i, i < 64 → slot s1.mem i = if i = k then -1 else slot s.mem i) ∧
      usage s1.mem = usage s.mem - slot s.mem k ∧ s1.log = s.log ∧
      (∀ j, j < 64 → j ≠ k → slot s.mem j ≠ -1 → contents s1.mem j = contents s.mem j) := by
  obtain ⟨m1, hcp, hc⟩ := destroy_queue_some s h k hk hocc hB
  obtain ⟨hsl, hus, hwf, hlog⟩ := destroy_queue_table s _ h k hk hocc hc
  have hkk : slot (destroyed s k m1).mem k = -1 := by rw [hsl k hk, if_pos rfl]
  have hgek := h.offset_ge k (by omega)
  have hszk := h.size_ge k hk hocc
  have hendk := h.end_le_usage k hk hocc
  refine ⟨_, hc, hwf, hsl, hus, hlog, ?_⟩
  intro j hj hjk hoccj
  have hszj := h.size_ge j hj hoccj
  have hgej := h.offset_ge j (by omega)
  have hendj := h.end_le_usage j hj hoccj
  apply contents_shift _ _ j (by rw [hsl j hj, if_neg hjk])
  intro i hi0 hi1
  by_cases hlt : j < k
  · have ho : offset_of (destroyed s k m1).mem j = offset_of s.mem j :=
      offset_of_congr _ _ j (fun i hi => by rw [hsl i (by omega), if_neg (by omega)])
    have hm := h.offset_mono (j + 1) k (by omega) (by omega)
    rw [offset_of_succ, span_def, if_neg hoccj] at hm
    rw [ho]
    exact (destroyed_data s h k hk hocc m1 hcp _ (by omega)).1 (by omega)
  · have ho : offset_of (destroyed s k m1).mem j = offset_of s.mem j - slot s.mem k := by
      rw [offset_of_update (destroyed s k m1).mem s.mem k j (by omega) (by omega)
        (fun i hi hik => by rw [hsl i hi, if_neg hik]), span_def, span_def, hkk,
        if_pos rfl, if_neg hocc]
      omega
    have hm := h.offset_mono (k + 1) j (by omega) (by omega)
    rw [offset_of_succ, span_def, if_neg hocc] at hm
    rw [ho, (destroyed_data s h k hk hocc m1 hcp _ (by omega)).2 (by omega) (by omega)]
    have e2 : offset_of s.mem j - slot s.mem k + i + slot s.mem k = offset_of s.mem j + i := by
      omega
    rw [e2]

/-- With the usage counter above `Capacity`, `dequeue_byte` on an occupied slot is
undefined: its first read or its word copies leave the array. -/
theorem dequeue_byte_none_above (s : Arena) (h : WellFormed s.mem) (k : Nat) (hk : k < 64)
    (hocc : slot s.mem k ≠ -1) (hB : 2048 < usage s.mem) :
    dequeue_byte s (some k) = none := by
  have hge := h.offset_ge k (by omega)
  have hsz := h.size_ge k hk hocc
  have hend := h.end_le_usage k hk hocc
  have hn := get_num_copies_bounds (usage s.mem - offset_of s.mem k - 1) (by omega)
  simp only [dequeue_byte, Option.bind_eq_bind]
  rw [load16_slot s.mem k (by omega), Option.some_bind, walk_start s.mem h k (by omega),
    Option.some_bind]
  cases hl : load8 s.mem (offset_of s.mem k) with
  | none => rfl
  | some r =>
    rw [Option.some_bind, load16_usage, Option.some_bind,
      copy_up_none _ _ _ _ (by omega) (by omega)]
    rfl

/-! ## The table frame -/

theorem TableFrame.other_slot_eq {k : Nat} {m1 m : Mem} (h : TableFrame k m1 m) (i : Nat)
    (hi : i < 64) (hik : i ≠ k) : slot m1 i = slot m i := by
  apply rd16_congr
  · exact h _ (by omega) (by show 2 * (i : Int) < 130; omega) (by omega) (by omega)
      (by show 2 * (i : Int) ≠ 128; omega) (by show 2 * (i : Int) ≠ 128 + 1; omega)
  · exact h _ (by omega) (by show 2 * (i : Int) + 1 < 130; omega) (by omega) (by omega)
      (by show 2 * (i : Int) + 1 ≠ 128; omega) (by show 2 * (i : Int) + 1 ≠ 128 + 1; omega)

theorem tableFrame_wr16 (k : Nat) (m1 m : Mem) (u v : Int) (hst : SameTable m1 m) :
    TableFrame k (wr16 (wr16 m1 BYTES_USED_INDEX u) (2 * (k : Int)) v) m ∧
      TableFrame k (wr16 (wr16 m1 (2 * (k : Int)) v) BYTES_USED_INDEX u) m := by
  constructor
  · intro x h0 h1 h2 h3 h4 h5
    rw [wr16_other _ _ _ _ h2 h3, wr16_other _ _ _ _ h4 h5]
    exact hst x h0 h1
  · intro x h0 h1 h2 h3 h4 h5
    rw [wr16_other _ _ _ _ h4 h5, wr16_other _ _ _ _ h2 h3]
    exact hst x h0 h1

/-- A completed `create_queue` that finds slot `k` leaves the rest of the table alone. -/
theorem create_queue_frame (s s1 : Arena) (q : Option Nat) (h : WellFormed s.mem) (k : Nat)
    (hk : k < 64) (hocc : ∀ j, j < k → slot s.mem j ≠ -1) (hun : slot s.mem k = -1)
    (hc : create_queue s = some (q, s1)) : TableFrame k s1.mem s.mem := by
  rw [create_queue_eq s h k hk hocc hun, Option.map_eq_some'] at hc
  obtain ⟨m1, hcp, he⟩ := hc
  have hle := h.offset_le_usage k (by omega)
  have hge := h.offset_ge k (by omega)
  have hn := get_num_copies_bounds (usage s.mem - offset_of s.mem k) (by omega)
  have hst := copy_down_sameTable _ _ _ _ _ (by omega) hcp (by omega)
  obtain ⟨_, hs1⟩ := Prod.mk.inj he
  subst hs1
  exact (tableFrame_wr16 k m1 s.mem _ _ hst).2

/-- A completed `destroy_queue` of an occupied slot leaves the rest of the table alone. -/
theorem destroy_queue_frame (s s1 : Arena) (h : WellFormed s.mem) (k : Nat) (hk : k < 64)
    (hocc : slot s.mem k ≠ -1) (hc : destroy_queue s (some k) = some s1) :
    TableFrame k s1.mem s.mem := by
  rw [destroy_queue_eq s h k hk hocc, Option.map_eq_some'] at hc
  obtain ⟨m1, hcp, he⟩ := hc
  have hge := h.offset_ge k (by omega)
  have hsz := h.size_ge k hk hocc
  have hst := copy_up_sameTable _ _ _ _ _ (by omega) hcp (by omega)
  subst he
  exact (tableFrame_wr16 k m1 s.mem _ _ hst).1

/-- A completed `enqueue_byte` on an occupied slot leaves the rest of the table alone. -/
theorem enqueue_byte_frame (s s1 : Arena) (h : WellFormed s.mem) (k : Nat) (b : Byte)
    (hk : k < 64) (hocc : slot s.mem k ≠ -1) (hB : usage s.mem < 2048)
    (hc : enqueue_byte s (some k) b = some s1) : TableFrame k s1.mem s.mem := by
  rw [enqueue_byte_eq s h k hk hocc (by omega), Option.map_eq_some'] at hc
  obtain ⟨m1, hcp, he⟩ := hc
  have hge := h.offset_ge k (by omega)
  have hsz := h.size_ge k hk hocc
  have hend := h.end_le_usage k hk hocc
  have hn := get_num_copies_bounds (usage s.mem - (offset_of s.mem k + slot s.mem k)) (by omega)
  have hst := copy_down_sameTable _ _ _ _ _ (by omega) hcp (by omega)
  have hst2 : SameTable (write m1 (offset_of s.mem k + slot s.mem k - 3) b) s.mem := by
    intro x hx0 hx1
    rw [write_other _ _ _ _ (by omega)]
    exact hst x hx0 hx1
  subst he
  exact (tableFrame_wr16 k _ s.mem _ _ hst2).1

/-- A completed `dequeue_byte` on an occupied slot leaves the rest of the table alone. -/
theorem dequeue_byte_frame (s s1 : Arena) (r : Byte) (h : WellFormed s.mem) (k : Nat)
    (hk : k < 64) (hocc : slot s.mem k ≠ -1)
    (hc : dequeue_byte s (some k) = some (r, s1)) : TableFrame k s1.mem s.mem := by
  by_cases hB : usage s.mem ≤ 2048
  · rw [dequeue_byte_eq s h k hk hocc hB, Option.map_eq_some'] at hc
    obtain ⟨m1, hcp, he⟩ := hc
    have hge := h.offset_ge k (by omega)
    have hst := copy_up_sameTable _ _ _ _ _ (by omega) hcp (by omega)
    obtain ⟨_, hs1⟩ := Prod.mk.inj he
    subst hs1
    exact (tableFrame_wr16 k m1 s.mem _ _ hst).1
  · rw [dequeue_byte_none_above s h k hk hocc (by omega)] at hc
    exact absurd hc (by simp)

/-! ## Stored bytes -/

theorem stored_bytes_eq (m : Mem) (h : WellFormed m) (n : Nat) (hn : n ≤ 64) :
    stored_bytes m n = occupied_sum m n - 3 * occupied_count m n := by
  induction n with
  | zero => rfl
  | succ n ih =>
    have e1 : stored_bytes m (n + 1) = stored_bytes m n + ((contents m n).length : Int) := rfl
    have e2 : occupied_count m (n + 1) =
        occupied_count m n + (if slot m n = -1 then 0 else 1) := rfl
    rw [e1, e2, occupied_sum_succ, ih (by omega), contents_length, span_def]
    rcases h.slot_cases n (by omega) with h1 | h1
    · rw [h1, if_pos rfl, if_pos rfl]; omega
    · rw [if_neg (by omega), if_neg (by omega)]; omega

/-! ## The claims -/

/-- C1. FIFO round trip at the capacity boundary: from `initialize_data` and one
`create_queue`, the new queue is empty and 1915 bytes are enqueued with the usage counter
below `Capacity` before each call and no failure reported, and the queue then holds these
bytes; the first of the 1915 calls of `dequeue_byte` that should return them is undefined,
because its word copies run past the end of the array. -/
theorem round_trip_undefined_at_capacity :
    ∃ s0 s1, create_queue (initialize_data boot) = some (some 0, s0) ∧
      WellFormed s0.mem ∧ slot s0.mem 0 = PADDING_SIZE ∧
      enqueue_all s0 (some 0) (List.replicate 1915 7) = some s1 ∧
      usage s0.mem + 1915 = DATA_ARRAY_SIZE ∧ usage s1.mem = DATA_ARRAY_SIZE ∧ s1.log = [] ∧
      contents s1.mem 0 = List.replicate 1915 7 ∧
      dequeue_n s1 (some 0) 1915 = none := by
  obtain ⟨s0, s1, hc, hwf0, hk0, hus0, he, hwf1, hk1, hus1, hlog1, hct1⟩ := fill_single_queue 7
  refine ⟨s0, s1, hc, hwf0, hk0, he, by rw [hus0]; rfl, hus1, hlog1, hct1, ?_⟩
  have hd : dequeue_byte s1 (some 0) = none := by
    apply dequeue_byte_none s1 hwf1 0 (by omega) (by rw [hk1]; omega) (by omega)
    · rw [hus1, offset_of_zero]; decide
    · rw [hus1, offset_of_zero]; decide
  exact dequeue_n_none s1 (some 0) 1914 hd

/-- C2. Isolation at the capacity boundary: from `initialize_data`, queues A (slot 0) and
B (slot 1) are created, one byte is enqueued to B and then 1911 bytes to A, every call
with its precondition and with no failure reported; the usage counter is then `Capacity`
and B still holds its one byte, and `dequeue_byte` on B is undefined instead of returning
that byte, because its word copy runs past the end of the array. -/
theorem isolation_undefined_at_capacity :
    ∃ s0 s1 s2 s3, create_queue (initialize_data boot) = some (some 0, s0) ∧
      create_queue s0 = some (some 1, s1) ∧ WellFormed s1.mem ∧
      enqueue_byte s1 (some 1) 7 = some s2 ∧ usage s2.mem + 1911 = DATA_ARRAY_SIZE ∧
      enqueue_all s2 (some 0) (List.replicate 1911 9) = some s3 ∧
      usage s3.mem = DATA_ARRAY_SIZE ∧ slot s3.mem 1 = PADDING_SIZE + 1 ∧ s3.log = [] ∧
      contents s3.mem 1 = [7] ∧
      dequeue_byte s3 (some 1) = none := by
  have hwf := initialize_data_wellFormed boot
  have hus := initialize_data_usage boot
  have hun := initialize_data_slot boot
  obtain ⟨m0, _, hc0⟩ := create_queue_some (initialize_data boot) hwf 0 (by omega)
    (fun j hj => by omega) (hun 0 (by omega)) (by omega)
  obtain ⟨_, hsl0, hus0, hwf0, hlog0⟩ := create_queue_table _ _ _ hwf 0 (by omega)
    (fun j hj => by omega) (hun 0 (by omega)) (by omega) hc0
  rw [hus] at hus0
  rw [if_neg (by omega)] at hlog0
  have h00 : slot (created (initialize_data boot) 0 m0).mem 0 = 3 := by
    rw [hsl0 0 (by omega), if_pos rfl]
  have h01 : slot (created (initialize_data boot) 0 m0).mem 1 = -1 := by
    rw [hsl0 1 (by omega), if_neg (by omega), hun 1 (by omega)]
  have hocc1 : ∀ j, j < 1 → slot (created (initialize_data boot) 0 m0).mem j ≠ -1 := by
    intro j hj
    have : j = 0 := by omega
    rw [this, h00]; omega
  obtain ⟨m1, _, hc1⟩ := create_queue_some _ hwf0 1 (by omega) hocc1 h01 (by omega)
  obtain ⟨_, hsl1, hus1, hwf1, hlog1⟩ := create_queue_table _ _ _ hwf0 1 (by omega)
    hocc1 h01 (by omega) hc1
  rw [hus0] at hus1
  rw [if_neg (by omega), hlog0] at hlog1
  generalize created (initialize_data boot) 0 m0 = s0 at *
  have h10 : slot (created s0 1 m1).mem 0 = 3 := by
    rw [hsl1 0 (by omega), if_neg (by omega), h00]
  have h11 : slot (created s0 1 m1).mem 1 = 3 := by
    rw [hsl1 1 (by omega), if_pos rfl]
  generalize created s0 1 m1 = s1 at *
  obtain ⟨s2, hc2, hwf2, hsl2, hus2, hlog2, hct2, _⟩ :=
    enqueue_byte_step s1 hwf1 1 (by omega) (by omega) (by omega) 7
  have h20 : slot s2.mem 0 = 3 := by
    rw [hsl2 0 (by omega), if_neg (by omega), h10]
  have h21 : slot s2.mem 1 = 4 := by
    rw [hsl2 1 (by omega), if_pos rfl, h11]; rfl
  rw [hus1] at hus2
  rw [hlog1] at hlog2
  rw [contents_empty _ 1 h11, List.nil_append] at hct2
  obtain ⟨s3, he, hwf3, hsl3, hus3, hlog3, _, hoth3⟩ :=
    enqueue_all_contents (List.replicate 1911 9) s2 hwf2 0 (by omega) (by omega)
      (by rw [hus2, List.length_replicate]; norm_num)
  rw [List.length_replicate, hus2] at hus3
  rw [List.length_replicate] at hsl3
  have h30 : slot s3.mem 0 = 1914 := by
    rw [hsl3 0 (by omega), if_pos rfl, h20]; norm_num
  have h31 : slot s3.mem 1 = 4 := by
    rw [hsl3 1 (by omega), if_neg (by omega), h21]
  have hus3b : usage s3.mem = 2048 := by rw [hus3]; norm_num
  have hoff : offset_of s3.mem 1 = 2044 := by
    rw [offset_of_succ, offset_of_zero, span_def, h30]; norm_num
  refine ⟨s0, s1, s2, s3, hc0, hc1, hwf1, hc2, by rw [hus2]; norm_num, he, hus3b, ?_, ?_, ?_,
    ?_⟩
  · rw [h31]; rfl
  · rw [hlog3, hlog2]; rfl
  · rw [hoth3 1 (by omega) (by omega) (by omega), hct2]
  · apply dequeue_byte_none s3 hwf3 1 (by omega) (by omega) (by omega)
    · rw [hus3b, hoff]; decide
    · rw [hus3b, hoff]; decide

/-- C3. Usage-counter invariant: in every state reachable from `initialize_data` by calls
whose stated preconditions hold, the usage counter equals `DATA_START_OFFSET` plus the sum
of the sizes of the occupied slots. -/
theorem usage_counter_invariant (s : Arena) (h : Reachable s) :
    usage s.mem = DATA_START_OFFSET + occupied_sum s.mem MAX_QUEUES :=
  (reachable_invariant s h).1.usage_eq

/-- Witness for C3: the state after `initialize_data`, `create_queue` and one
`enqueue_byte`. -/
theorem usage_counter_invariant_witness :
    usage sample_enqueued.mem = DATA_START_OFFSET + occupied_sum sample_enqueued.mem MAX_QUEUES :=
  usage_counter_invariant sample_enqueued sample_enqueued_reachable

/-- C4. End-to-end scenario: `main` prints 0, 1, 2, 5, 3, 4, 6 in that order, calls neither
failure hook, and ends with the usage counter at `DATA_START_OFFSET` and slots 0 and 1
`Unused`. -/
theorem main_scenario :
    main.map (fun r => (r.1, r.2.log, usage r.2.mem, slot r.2.mem 0, slot r.2.mem 1)) =
      some ([0, 1, 2, 5, 3, 4, 6], [], DATA_START_OFFSET, UNUSED_QUEUE, UNUSED_QUEUE) := by
  decide

set_option maxRecDepth 1000000 in
/-- C5. Capacity boundary: from `initialize_data`, one `create_queue` and 1915 accepted
`enqueue_byte` calls the usage counter is `Capacity`; the next `enqueue_byte` reports
`OutOfMemory` and then stores the byte all the same, at index 2045, and raises the slot's
size to 1919 and the usage counter to 2049.  Likewise `create_queue` on a well-formed
arena with usage 2044 reports `OutOfMemory` and then takes slot 1 and raises the usage
counter to 2047. -/
theorem out_of_memory_falls_through :
    (∃ s0 s1 s2, create_queue (initialize_data boot) = some (some 0, s0) ∧
      enqueue_all s0 (some 0) (List.replicate 1915 7) = some s1 ∧ WellFormed s1.mem ∧
      usage s1.mem = DATA_ARRAY_SIZE ∧ slot s1.mem 0 = 1918 ∧ s1.log = [] ∧
      enqueue_byte s1 (some 0) 9 = some s2 ∧ s2.log = [Failure.OutOfMemory] ∧
      s2.mem 2045 = 9 ∧ slot s2.mem 0 = 1919 ∧ usage s2.mem = 2049) ∧
    WellFormed (arena_of [1914] 2044).mem ∧
    (create_queue (arena_of [1914] 2044)).map
        (fun r => (r.1, r.2.log, slot r.2.mem 1, usage r.2.mem)) =
      some (some 1, [Failure.OutOfMemory], 3, 2047) := by
  refine ⟨?_, by decide, by decide⟩
  obtain ⟨s0, s1, hc, _, _, _, he, hwf1, hk1, hus1, hlog1, _⟩ := fill_single_queue 7
  have hocc : slot s1.mem 0 ≠ -1 := by rw [hk1]; omega
  have hn : (get_num_copies (usage s1.mem - (offset_of s1.mem 0 + slot s1.mem 0))).toNat = 0 := by
    rw [hus1, offset_of_zero, hk1]; decide
  have hq := enqueue_byte_eq s1 hwf1 0 (by omega) hocc (by omega) 9
  rw [hn] at hq
  have hst : SameTable s1.mem s1.mem := fun _ _ _ => rfl
  refine ⟨s0, s1, _, hc, he, hwf1, hus1, hk1, hlog1, hq, ?_, ?_, ?_, ?_⟩
  · simp only [copy_down, Option.map_some', enqueued]
    rw [if_pos (by omega), hlog1]; rfl
  · simp only [copy_down, Option.map_some', enqueued]
    rw [wr16_slot_data _ 0 _ _ (by omega) (by omega), wr16_usage_data _ _ _ (by omega),
      offset_of_zero, hk1]
    exact write_same _ _ _
  · rw [enqueued_slot s1 0 9 s1.mem hst (by rw [offset_of_zero, hk1]; omega) 0
      (by omega), if_pos rfl, hk1]
    decide
  · rw [enqueued_usage s1 0 9 s1.mem (by omega) (by omega), hus1]
    rfl

/-- C6. Empty-queue guard: from `initialize_data` and one `create_queue` the queue in slot 0
is empty (size `OVERHEAD`, usage 133); `dequeue_byte` on it reports `IllegalOperation` and
then goes on: it leaves the slot with size 2 and the usage counter at 132. -/
theorem empty_dequeue_falls_through :
    (create_queue (initialize_data boot)).bind (fun c =>
      (dequeue_byte c.2 c.1).map (fun d =>
        (c.1, [slot c.2.mem 0, usage c.2.mem], c.2.log, d.2.log,
          [slot d.2.mem 0, usage d.2.mem]))) =
    some (some 0, [PADDING_SIZE, 133], [], [Failure.IllegalOperation], [2, 132]) := by
  decide

/-- C7. Handle validity on enqueue: right after `initialize_data` slot 0 is `Unused`;
`enqueue_byte` on its handle reports nothing and goes on: it sets slot 0 to size 0, writes
the byte into the table (slot 63 becomes -249) and leaves -32000 in the usage counter. -/
theorem enqueue_unused_not_reported :
    slot (initialize_data boot).mem 0 = UNUSED_QUEUE ∧
    WellFormed (initialize_data boot).mem ∧
    (enqueue_byte (initialize_data boot) (some 0) 7).map
        (fun s => (s.log, slot s.mem 0, slot s.mem 63, usage s.mem)) =
      some ([], 0, -249, -32000) := by
  refine ⟨by decide, initialize_data_wellFormed boot, by decide⟩

set_option maxRecDepth 1000000 in
/-- C8, as stated. A well-formed arena with the usage counter at exactly
`Capacity - OVERHEAD - 2 = 2043`: `create_queue` reports `OutOfMemory`. -/
theorem creation_margin_counterexample :
    WellFormed (arena_of [1913] 2043).mem ∧
    usage (arena_of [1913] 2043).mem = DATA_ARRAY_SIZE - PADDING_SIZE - 2 ∧
    (create_queue (arena_of [1913] 2043)).map (fun r => (r.1, r.2.log)) =
      some (some 1, [Failure.OutOfMemory]) := by
  refine ⟨by decide, by decide, by decide⟩

/-- C8, amended. Creation margin: in a well-formed arena `create_queue` completes whenever
the usage counter is at most `Capacity - OVERHEAD`, and every completed call reports
`OutOfMemory` if and only if the usage counter is at least `Capacity - OVERHEAD - 2`: none
is reported for usage up to 2042, one is reported from 2043 on. -/
theorem creation_margin (s : Arena) (h : WellFormed s.mem) :
    (usage s.mem ≤ DATA_ARRAY_SIZE - PADDING_SIZE → ∃ r, create_queue s = some r) ∧
    ∀ q s1, create_queue s = some (q, s1) →
      ∃ added, s1.log = s.log ++ added ∧
        (Failure.OutOfMemory ∈ added ↔ DATA_ARRAY_SIZE - PADDING_SIZE - 2 ≤ usage s.mem) := by
  have hfull_log : ∀ hfull : (∀ j, j < 64 → slot s.mem j ≠ -1), ∀ q s1,
      create_queue s = some (q, s1) →
      ∃ added, s1.log = s.log ++ added ∧ (Failure.OutOfMemory ∈ added ↔ 2043 ≤ usage s.mem) := by
    intro hfull q s1 hc
    rw [create_queue_full s hfull] at hc
    obtain ⟨_, hs1⟩ := Prod.mk.inj (Option.some.inj hc)
    subst hs1
    by_cases hB : 2043 ≤ usage s.mem
    · refine ⟨[Failure.OutOfMemory, Failure.IllegalOperation], ?_, by simp [hB]⟩
      rw [if_pos hB]; simp [on_illegal_operation, on_out_of_memory]
    · refine ⟨[Failure.IllegalOperation], ?_, by simp [hB]⟩
      rw [if_neg hB]; simp [on_illegal_operation]
  rcases first_unused s.mem 64 with hfull | ⟨k, hk, hocc, hun⟩
  · refine ⟨fun _ => ⟨_, create_queue_full s hfull⟩, hfull_log hfull⟩
  · constructor
    · intro hB
      have hB2 : usage s.mem ≤ 2045 := hB
      obtain ⟨m1, _, hc⟩ := create_queue_some s h k hk hocc hun hB2
      exact ⟨_, hc⟩
    · intro q s1 hc
      rw [create_queue_eq s h k hk hocc hun, Option.map_eq_some'] at hc
      obtain ⟨m1, _, he⟩ := hc
      obtain ⟨_, hs1⟩ := Prod.mk.inj he
      subst hs1
      show ∃ added, (created s k m1).log = s.log ++ added ∧
        (Failure.OutOfMemory ∈ added ↔ 2043 ≤ usage s.mem)
      by_cases hB : 2043 ≤ usage s.mem
      · exact ⟨[Failure.OutOfMemory], by simp only [created]; rw [if_pos hB], by simp [hB]⟩
      · exact ⟨[], by simp only [created]; rw [if_neg hB]; simp, by simp [hB]⟩

set_option maxRecDepth 1000000 in
/-- Witness for C8, amended: the arena of the counterexample, usage 2043. -/
theorem creation_margin_witness :
    (usage (arena_of [1913] 2043).mem ≤ DATA_ARRAY_SIZE - PADDING_SIZE →
      ∃ r, create_queue (arena_of [1913] 2043) = some r) ∧
    ∀ q s1, create_queue (arena_of [1913] 2043) = some (q, s1) →
      ∃ added, s1.log = (arena_of [1913] 2043).log ++ added ∧
        (Failure.OutOfMemory ∈ added ↔
          DATA_ARRAY_SIZE - PADDING_SIZE - 2 ≤ usage (arena_of [1913] 2043).mem) :=
  creation_margin (arena_of [1913] 2043) (by decide)

/-- C9. Table boundary: from `initialize_data`, whatever the buffer held before, 64
consecutive `create_queue` calls return the handles of slots 0, 1, ..., 63 in this order and
report no failure; the 65th returns the null handle, reports `IllegalOperation` and leaves
the buffer as it was. -/
theorem table_boundary (s : Arena) :
    ∃ s64, create_many (initialize_data s) MAX_QUEUES =
        some ((List.range MAX_QUEUES).map some, s64) ∧
      s64.log = s.log ∧
      create_queue s64 =
        some (none, { mem := s64.mem, log := s64.log ++ [Failure.IllegalOperation] }) := by
  obtain ⟨s64, hc, hwf, hsl, hus, hlog⟩ :=
    create_many_fresh 64 (initialize_data s) 0 (by omega) (initialize_data_wellFormed s)
      (fun i hi => by rw [initialize_data_slot s i hi, if_neg (by omega)])
      (by rw [initialize_data_usage]; rfl)
  refine ⟨s64, ?_, hlog, ?_⟩
  · rw [hc, List.range_eq_range']
  · have hfull : ∀ j, j < 64 → slot s64.mem j ≠ -1 := by
      intro j hj; rw [hsl j hj, if_pos (by omega)]; omega
    rw [create_queue_full s64 hfull, if_neg (by rw [hus]; norm_num)]
    rfl

set_option maxRecDepth 1000000 in
/-- C10, as stated. A well-formed arena with queues of sizes 1908 and 5 in slots 0 and 2,
slot 1 unused and the usage counter at exactly `Capacity - OVERHEAD - 2 = 2043`:
`create_queue` reports `OutOfMemory` and returns the handle of slot 1 with the usage counter
at 2046, and `destroy_queue` of that handle is undefined, because the second of its two
word copies reads the word at index 2045, which ends outside the array. -/
theorem create_destroy_round_trip_counterexample :
    WellFormed (arena_of [1908, -1, 5] 2043).mem ∧
    slot (arena_of [1908, -1, 5] 2043).mem 1 = UNUSED_QUEUE ∧
    usage (arena_of [1908, -1, 5] 2043).mem = DATA_ARRAY_SIZE - PADDING_SIZE - 2 ∧
    ∃ s1, create_queue (arena_of [1908, -1, 5] 2043) = some (some 1, s1) ∧
      s1.log = [Failure.OutOfMemory] ∧ slot s1.mem 1 = PADDING_SIZE ∧ usage s1.mem = 2046 ∧
      offset_of s1.mem 1 = 2038 ∧
      get_num_copies (usage s1.mem - offset_of s1.mem 1 - slot s1.mem 1) = 2 ∧
      (∀ m, load32 m (2038 + 3 + 4) = none) ∧
      destroy_queue s1 (some 1) = none := by
  have hwf : WellFormed (arena_of [1908, -1, 5] 2043).mem := by decide
  have hun : slot (arena_of [1908, -1, 5] 2043).mem 1 = -1 := by decide
  have hus : usage (arena_of [1908, -1, 5] 2043).mem = 2043 := by decide
  have hoff : offset_of (arena_of [1908, -1, 5] 2043).mem 1 = 2038 := by decide
  have hocc : ∀ j, j < 1 → slot (arena_of [1908, -1, 5] 2043).mem j ≠ -1 := by
    intro j hj
    have e : j = 0 := by omega
    rw [e]; decide
  obtain ⟨m1, _, hc⟩ := create_queue_some _ hwf 1 (by omega) hocc hun (by omega)
  obtain ⟨_, hsl, hus1, hwf1, hlog⟩ :=
    create_queue_table _ _ _ hwf 1 (by omega) hocc hun (by omega) hc
  have hk3 : slot (created (arena_of [1908, -1, 5] 2043) 1 m1).mem 1 = 3 := by
    rw [hsl 1 (by omega), if_pos rfl]
  have hoff1 : offset_of (created (arena_of [1908, -1, 5] 2043) 1 m1).mem 1 = 2038 := by
    rw [offset_of_congr _ (arena_of [1908, -1, 5] 2043).mem 1
      (fun i hi => by rw [hsl i (by omega), if_neg (by omega)]), hoff]
  have hus2 : usage (created (arena_of [1908, -1, 5] 2043) 1 m1).mem = 2046 := by
    rw [hus1, hus]; rfl
  have hcopies : get_num_copies (usage (created (arena_of [1908, -1, 5] 2043) 1 m1).mem -
      offset_of (created (arena_of [1908, -1, 5] 2043) 1 m1).mem 1 -
      slot (created (arena_of [1908, -1, 5] 2043) 1 m1).mem 1) = 2 := by
    rw [hus2, hoff1, hk3]; decide
  refine ⟨hwf, hun, hus, _, hc, ?_, hk3, hus2, hoff1, hcopies, ?_, ?_⟩
  · rw [hlog, if_pos (by omega)]; rfl
  · intro m; unfold load32; rw [if_neg (by simp only [DATA_ARRAY_SIZE]; omega)]
  · apply destroy_queue_none _ hwf1 1 (by omega) (by rw [hk3]; omega)
    · rw [hcopies]; decide
    · rw [hcopies, hoff1, hk3]; decide

/-- C10, amended. Create/destroy idempotence: in a well-formed arena with an unused slot
and the usage counter below `Capacity - OVERHEAD - 2`, the margin of the guard of
`create_queue`, `create_queue` followed by `destroy_queue` of the handle it returned
completes, and leaves the usage counter, every slot record, the logical contents of every
live queue and the list of reported failures as they were. -/
theorem create_destroy_round_trip (s : Arena) (h : WellFormed s.mem)
    (hfree : ∃ i, i < MAX_QUEUES ∧ slot s.mem i = UNUSED_QUEUE)
    (hB : usage s.mem < DATA_ARRAY_SIZE - PADDING_SIZE - 2) :
    ∃ k s1 s2, create_queue s = some (some k, s1) ∧ destroy_queue s1 (some k) = some s2 ∧
      usage s2.mem = usage s.mem ∧
      (∀ i, i < MAX_QUEUES → slot s2.mem i = slot s.mem i) ∧
      (∀ j, j < MAX_QUEUES → slot s.mem j ≠ UNUSED_QUEUE →
        contents s2.mem j = contents s.mem j) ∧
      s2.log = s.log := by
  have hB2 : usage s.mem < 2043 := hB
  obtain ⟨i0, hi0, hfree0⟩ := hfree
  rcases first_unused s.mem 64 with hfull | ⟨k, hk, hocc, hun⟩
  · exact absurd hfree0 (hfull i0 hi0)
  obtain ⟨m1, hc1, hcreate⟩ := create_queue_some s h k hk hocc hun (by omega)
  obtain ⟨_, hsl1, hus1, hwf1, hlog1⟩ :=
    create_queue_table s _ _ h k hk hocc hun (by omega) hcreate
  have hk3 : slot (created s k m1).mem k = 3 := by rw [hsl1 k hk, if_pos rfl]
  have hocc1 : slot (created s k m1).mem k ≠ -1 := by rw [hk3]; omega
  obtain ⟨m2, hc2, hdestroy⟩ := destroy_queue_some _ hwf1 k hk hocc1 (by omega)
  obtain ⟨hsl2, hus2, _, hlog2⟩ := destroy_queue_table _ _ hwf1 k hk hocc1 hdestroy
  have hslots : ∀ i, i < 64 →
      slot (destroyed (created s k m1) k m2).mem i = slot s.mem i := by
    intro i hi
    rw [hsl2 i hi]
    by_cases hik : i = k
    · rw [if_pos hik, hik, hun]
    · rw [if_neg hik, hsl1 i hi, if_neg hik]
  have hoff : offset_of (created s k m1).mem k = offset_of s.mem k :=
    offset_of_congr _ _ k (fun i hi => by rw [hsl1 i (by omega), if_neg (by omega)])
  refine ⟨k, _, _, hcreate, hdestroy, ?_, hslots, ?_, ?_⟩
  · rw [hus2, hus1, hk3]; omega
  · intro j hj hoccj
    have hj2 : j < 64 := hj
    apply contents_congr _ _ j (hslots j hj2)
      (offset_of_congr _ _ j (fun i hi => hslots i (by omega)))
    intro x hx1 hx2
    have hge := h.offset_ge j (by omega)
    have hend := h.end_le_usage j hj2 hoccj
    have hd := destroyed_data _ hwf1 k hk hocc1 m2 hc2 x (by omega)
    rw [hoff, hus1, hk3] at hd
    by_cases hlow : x < offset_of s.mem k
    · rw [hd.1 hlow]
      exact (created_data s h k hk m1 hc1 x (by omega)).1 (Or.inl hlow)
    · rw [hd.2 (by omega) (by omega)]
      have e := (created_data s h k hk m1 hc1 (x + 3) (by omega)).2 (by omega) (by omega)
      rw [e]
      have e2 : x + 3 - 3 = x := by omega
      rw [e2]
  · rw [hlog2, hlog1, if_neg (by omega)]

set_option maxRecDepth 1000000 in
/-- Witness for C10, amended: an arena with queues of sizes 5 and 4 in slots 0 and 2 and
slot 1 unused. -/
theorem create_destroy_round_trip_witness :
    ∃ k s1 s2, create_queue (arena_of [5, -1, 4] 139) = some (some k, s1) ∧
      destroy_queue s1 (some k) = some s2 ∧
      usage s2.mem = usage (arena_of [5, -1, 4] 139).mem ∧
      (∀ i, i < MAX_QUEUES → slot s2.mem i = slot (arena_of [5, -1, 4] 139).mem i) ∧
      (∀ j, j < MAX_QUEUES → slot (arena_of [5, -1, 4] 139).mem j ≠ UNUSED_QUEUE →
        contents s2.mem j = contents (arena_of [5, -1, 4] 139).mem j) ∧
      s2.log = (arena_of [5, -1, 4] 139).log :=
  create_destroy_round_trip (arena_of [5, -1, 4] 139) (by decide) ⟨1, by decide, by decide⟩
    (by decide)

/-- C11. Bounds safety of the chunked shift at the capacity boundary.  From
`initialize_data`, one `create_queue` and 1915 accepted `enqueue_byte` calls lead to a
reachable state with the usage counter at `Capacity`; `dequeue_byte` on the non-empty queue
then makes 480 word copies from index 131, the last of which reads the word at index 2047,
outside the array, so the call is undefined.  Likewise, with two queues created and 1912
bytes enqueued to the first, `destroy_queue` of the first copies the word at index 2045,
which ends outside the array, and is undefined. -/
theorem shift_leaves_array_at_capacity :
    (∃ s0 s1, create_queue (initialize_data boot) = some (some 0, s0) ∧
      enqueue_all s0 (some 0) (List.replicate 1915 7) = some s1 ∧ Reachable s1 ∧
      usage s1.mem = DATA_ARRAY_SIZE ∧ slot s1.mem 0 > PADDING_SIZE ∧
      offset_of s1.mem 0 = 130 ∧
      get_num_copies (usage s1.mem - offset_of s1.mem 0 - 1) = 480 ∧
      (∀ m, load32 m (130 + 1 + 4 * 479) = none) ∧
      dequeue_byte s1 (some 0) = none) ∧
    (∃ s0 s1 s2, create_queue (initialize_data boot) = some (some 0, s0) ∧
      create_queue s0 = some (some 1, s1) ∧
      enqueue_all s1 (some 0) (List.replicate 1912 7) = some s2 ∧ Reachable s2 ∧
      usage s2.mem = DATA_ARRAY_SIZE ∧ slot s2.mem 0 = 1915 ∧ offset_of s2.mem 0 = 130 ∧
      get_num_copies (usage s2.mem - offset_of s2.mem 0 - slot s2.mem 0) = 1 ∧
      (∀ m, load32 m (130 + 1915) = none) ∧
      destroy_queue s2 (some 0) = none) := by
  constructor
  · obtain ⟨s0, s1, hc, hwf0, hk0, hus0, _, _, he, hwf1, hk1, hus1, _, _, _⟩ :=
      fill_queue boot (List.replicate 1915 7) (List.length_replicate _ _)
    have hr0 : Reachable s0 :=
      Reachable.create _ _ _ (Reachable.init boot)
        (by show usage (initialize_data boot).mem ≤ 2043
            rw [initialize_data_usage]; omega) hc
    have hr1 : Reachable s1 :=
      reachable_enqueue_all _ s0 s1 hr0 0 (by omega) (by rw [hk0]; omega)
        (by rw [hus0, List.length_replicate]; norm_num) he
    refine ⟨s0, s1, hc, he, hr1, hus1, by rw [hk1]; decide, offset_of_zero _, ?_, ?_, ?_⟩
    · rw [hus1, offset_of_zero]; decide
    · intro m; unfold load32; rw [if_neg (by simp only [DATA_ARRAY_SIZE]; omega)]
    · apply dequeue_byte_none s1 hwf1 0 (by omega) (by rw [hk1]; omega) (by omega)
      · rw [hus1, offset_of_zero]; decide
      · rw [hus1, offset_of_zero]; decide
  · obtain ⟨s0, s1, hc0, hc1, hr1, hwf1, h10, h11, hus1, _⟩ := fresh_pair boot
    obtain ⟨s2, he, hwf2, hsl2, hus2, _, _, _⟩ :=
      enqueue_all_contents (List.replicate 1912 7) s1 hwf1 0 (by omega) (by rw [h10]; omega)
        (by rw [hus1, List.length_replicate]; norm_num)
    have hr2 : Reachable s2 :=
      reachable_enqueue_all _ s1 s2 hr1 0 (by omega) (by rw [h10]; omega)
        (by rw [hus1, List.length_replicate]; norm_num) he
    rw [List.length_replicate] at hsl2 hus2
    have h20 : slot s2.mem 0 = 1915 := by
      rw [hsl2 0 (by omega), if_pos rfl, h10]; norm_num
    have hus2b : usage s2.mem = 2048 := by rw [hus2, hus1]; norm_num
    refine ⟨s0, s1, s2, hc0, hc1, he, hr2, hus2b, h20, offset_of_zero _, ?_, ?_, ?_⟩
    · rw [hus2b, offset_of_zero, h20]; decide
    · intro m; unfold load32; rw [if_neg (by simp only [DATA_ARRAY_SIZE]; omega)]
    · apply destroy_queue_none s2 hwf2 0 (by omega) (by rw [h20]; omega)
      · rw [hus2b, offset_of_zero, h20]; decide
      · rw [hus2b, offset_of_zero, h20]; decide

/-- C12. Initialization: after `initialize_data`, whatever the buffer held before, every
slot record is `Unused` and the usage counter equals
`DataStart = MAX_QUEUES * sizeof(Q) + sizeof(BYTES_USED_TYPE) = 130`. -/
theorem initialize_data_state (s : Arena) :
    (∀ i, i < MAX_QUEUES → slot (initialize_data s).mem i = UNUSED_QUEUE) ∧
      usage (initialize_data s).mem = DATA_START_OFFSET ∧
      DATA_START_OFFSET = (MAX_QUEUES : Int) * 2 + 2 ∧ DATA_START_OFFSET = 130 :=
  ⟨fun i hi => initialize_data_slot s i hi, initialize_data_usage s, by decide, by decide⟩

/-- Witness for C12: the buffer of `sample_gap`, which holds a queue, initialised again. -/
theorem initialize_data_state_witness :
    (∀ i, i < MAX_QUEUES → slot (initialize_data sample_gap).mem i = UNUSED_QUEUE) ∧
      usage (initialize_data sample_gap).mem = DATA_START_OFFSET ∧
      DATA_START_OFFSET = (MAX_QUEUES : Int) * 2 + 2 ∧ DATA_START_OFFSET = 130 :=
  initialize_data_state sample_gap

/-- C13. Bookkeeping of `create_queue`: in a well-formed arena whose lowest unused slot is
`k` and whose usage counter is at most `Capacity - OVERHEAD - 2`, `create_queue` completes,
returns the handle of slot `k`, sets that slot to `OVERHEAD`, raises the usage counter by
exactly `OVERHEAD` and leaves the other slot records as they were; below the margin of the
guard it reports nothing. -/
theorem create_queue_bookkeeping (s : Arena) (h : WellFormed s.mem) (k : Nat)
    (hk : k < MAX_QUEUES) (hun : slot s.mem k = UNUSED_QUEUE)
    (hlow : ∀ j, j < k → slot s.mem j ≠ UNUSED_QUEUE)
    (hB : usage s.mem ≤ DATA_ARRAY_SIZE - PADDING_SIZE - 2) :
    ∃ s1, create_queue s = some (some k, s1) ∧ slot s1.mem k = PADDING_SIZE ∧
      usage s1.mem = usage s.mem + PADDING_SIZE ∧
      (∀ i, i < MAX_QUEUES → i ≠ k → slot s1.mem i = slot s.mem i) ∧
      (usage s.mem < DATA_ARRAY_SIZE - PADDING_SIZE - 2 → s1.log = s.log) := by
  have hk2 : k < 64 := hk
  have hB2 : usage s.mem ≤ 2043 := hB
  obtain ⟨m1, _, hc⟩ := create_queue_some s h k hk2 hlow hun (by omega)
  obtain ⟨_, hsl, hus, _, hlog⟩ := create_queue_table s _ _ h k hk2 hlow hun (by omega) hc
  refine ⟨_, hc, ?_, ?_, ?_, ?_⟩
  · rw [hsl k hk2, if_pos rfl]; exact PADDING_SIZE_eq.symm
  · rw [hus, PADDING_SIZE_eq]
  · intro i hi hik
    rw [hsl i hi, if_neg hik]
  · intro hlt
    have hlt2 : usage s.mem < 2043 := hlt
    rw [hlog, if_neg (by omega)]

set_option maxRecDepth 1000000 in
/-- Witness for C13: slots 0 and 2 hold queues of sizes 5 and 4, slot 1 is the lowest
unused one and lies below an occupied slot. -/
theorem create_queue_bookkeeping_witness :
    ∃ s1, create_queue (arena_of [5, -1, 4] 139) = some (some 1, s1) ∧
      slot s1.mem 1 = PADDING_SIZE ∧
      usage s1.mem = usage (arena_of [5, -1, 4] 139).mem + PADDING_SIZE ∧
      (∀ i, i < MAX_QUEUES → i ≠ 1 → slot s1.mem i = slot (arena_of [5, -1, 4] 139).mem i) ∧
      (usage (arena_of [5, -1, 4] 139).mem < DATA_ARRAY_SIZE - PADDING_SIZE - 2 →
        s1.log = (arena_of [5, -1, 4] 139).log) :=
  create_queue_bookkeeping (arena_of [5, -1, 4] 139) (by decide) 1 (by decide) (by decide)
    (by decide) (by decide)

/-- C14. Single step of `enqueue_byte`: in a well-formed arena with the usage counter below
`Capacity`, `enqueue_byte` on an occupied slot completes, the queue then holds its former
contents followed by the byte, the byte is stored at the queue's start plus its former
logical length, which is the former end of its span minus `OVERHEAD`, and the slot's size
and the usage counter are each raised by exactly 1. -/
theorem enqueue_byte_single_step (s : Arena) (h : WellFormed s.mem) (k : Nat)
    (hk : k < MAX_QUEUES) (hocc : slot s.mem k ≠ UNUSED_QUEUE)
    (hB : usage s.mem < DATA_ARRAY_SIZE) (b : Byte) :
    ∃ s1, enqueue_byte s (some k) b = some s1 ∧
      contents s1.mem k = contents s.mem k ++ [b] ∧
      s1.mem (offset_of s.mem k + ((contents s.mem k).length : Int)) = b ∧
      offset_of s.mem k + ((contents s.mem k).length : Int) =
        offset_of s.mem k + slot s.mem k - PADDING_SIZE ∧
      slot s1.mem k = slot s.mem k + 1 ∧ usage s1.mem = usage s.mem + 1 := by
  have hk2 : k < 64 := hk
  have hB2 : usage s.mem < 2048 := hB
  obtain ⟨m1, hcp, he⟩ := enqueue_byte_some s h k hk2 hocc hB2 b
  obtain ⟨s1, he1, _, hsl, hus, _, hct, _⟩ := enqueue_byte_step s h k hk2 hocc hB2 b
  have e : s1 = enqueued s k b m1 := Option.some.inj (he1.symm.trans he)
  have hsz := h.size_ge k hk2 hocc
  have hge := h.offset_ge k (by omega)
  have hlen : ((contents s.mem k).length : Int) = slot s.mem k - 3 := by
    rw [contents_length]; omega
  refine ⟨s1, he1, hct, ?_, ?_, ?_, hus⟩
  · rw [e, hlen]
    exact (enqueued_data s h k hk2 hocc b m1 hcp _ (by omega)).2.1 (by omega)
  · rw [hlen, PADDING_SIZE_eq]; omega
  · rw [hsl k hk2, if_pos rfl]

set_option maxRecDepth 1000000 in
/-- Witness for C14: the queue of slot 1 in `sample_gap`, which holds 5 and 6 and lies
above an unused slot. -/
theorem enqueue_byte_single_step_witness :
    ∃ s1, enqueue_byte sample_gap (some 1) 9 = some s1 ∧
      contents s1.mem 1 = contents sample_gap.mem 1 ++ [9] ∧
      s1.mem (offset_of sample_gap.mem 1 + ((contents sample_gap.mem 1).length : Int)) = 9 ∧
      offset_of sample_gap.mem 1 + ((contents sample_gap.mem 1).length : Int) =
        offset_of sample_gap.mem 1 + slot sample_gap.mem 1 - PADDING_SIZE ∧
      slot s1.mem 1 = slot sample_gap.mem 1 + 1 ∧ usage s1.mem = usage sample_gap.mem + 1 :=
  enqueue_byte_single_step sample_gap (by decide) 1 (by decide) (by decide) (by decide) 9

/-- C15. Single step of `dequeue_byte` at the capacity boundary: from `initialize_data`,
queues A (slot 0) and B (slot 1) are created, byte 7 is enqueued to A and then 1911 bytes
to B, every call accepted; A then holds exactly the byte 7 and the usage counter is
`Capacity`, and `dequeue_byte` on A is undefined instead of returning 7, because its 480
word copies from index 131 run past the end of the array. -/
theorem dequeue_undefined_at_capacity :
    ∃ s0 s1 s2 s3, create_queue (initialize_data boot) = some (some 0, s0) ∧
      create_queue s0 = some (some 1, s1) ∧
      enqueue_byte s1 (some 0) 7 = some s2 ∧
      enqueue_all s2 (some 1) (List.replicate 1911 9) = some s3 ∧
      WellFormed s3.mem ∧ usage s3.mem = DATA_ARRAY_SIZE ∧ slot s3.mem 0 = PADDING_SIZE + 1 ∧
      contents s3.mem 0 = [7] ∧ s3.log = [] ∧
      get_num_copies (usage s3.mem - offset_of s3.mem 0 - 1) = 480 ∧
      dequeue_byte s3 (some 0) = none := by
  obtain ⟨s0, s1, hc0, hc1, _, hwf1, h10, h11, hus1, hlog1⟩ := fresh_pair boot
  obtain ⟨s2, hc2, hwf2, hsl2, hus2, hlog2, hct2, _⟩ :=
    enqueue_byte_step s1 hwf1 0 (by omega) (by omega) (by omega) 7
  have h20 : slot s2.mem 0 = 4 := by rw [hsl2 0 (by omega), if_pos rfl, h10]; rfl
  have h21 : slot s2.mem 1 = 3 := by rw [hsl2 1 (by omega), if_neg (by omega), h11]
  rw [contents_empty _ 0 h10, List.nil_append] at hct2
  obtain ⟨s3, he, hwf3, hsl3, hus3, hlog3, _, hoth3⟩ :=
    enqueue_all_contents (List.replicate 1911 9) s2 hwf2 1 (by omega) (by omega)
      (by rw [hus2, hus1, List.length_replicate]; norm_num)
  rw [List.length_replicate, hus2, hus1] at hus3
  have h30 : slot s3.mem 0 = 4 := by rw [hsl3 0 (by omega), if_neg (by omega), h20]
  have hus3b : usage s3.mem = 2048 := by rw [hus3]; norm_num
  refine ⟨s0, s1, s2, s3, hc0, hc1, hc2, he, hwf3, hus3b, by rw [h30]; rfl, ?_, ?_, ?_, ?_⟩
  · rw [hoth3 0 (by omega) (by omega) (by omega), hct2]
  · rw [hlog3, hlog2, hlog1]; rfl
  · rw [hus3b, offset_of_zero]; decide
  · apply dequeue_byte_none s3 hwf3 0 (by omega) (by omega) (by omega)
    · rw [hus3b, offset_of_zero]; decide
    · rw [hus3b, offset_of_zero]; decide

/-- C16. `create_queue` preserves live data: in a well-formed arena whose lowest unused
slot is `k` and whose usage counter is at most `Capacity - OVERHEAD - 2`, `create_queue`
completes, the new queue in slot `k` has logical length 0, and every queue occupied before
keeps its size and its logical contents, read at its new derived offset: the same offset
below `k`, `OVERHEAD` bytes further above `k`. -/
theorem create_queue_preserves_contents (s : Arena) (h : WellFormed s.mem) (k : Nat)
    (hk : k < MAX_QUEUES) (hun : slot s.mem k = UNUSED_QUEUE)
    (hlow : ∀ j, j < k → slot s.mem j ≠ UNUSED_QUEUE)
    (hB : usage s.mem ≤ DATA_ARRAY_SIZE - PADDING_SIZE - 2) :
    ∃ s1, create_queue s = some (some k, s1) ∧ (contents s1.mem k).length = 0 ∧
      ∀ j, j < MAX_QUEUES → slot s.mem j ≠ UNUSED_QUEUE →
        slot s1.mem j = slot s.mem j ∧ contents s1.mem j = contents s.mem j ∧
        offset_of s1.mem j = offset_of s.mem j + (if k < j then PADDING_SIZE else 0) := by
  have hk2 : k < 64 := hk
  have hB2 : usage s.mem ≤ 2043 := hB
  obtain ⟨s1, hc, _, hsl, _, _, hck, hoth⟩ := create_queue_step s h k hk2 hlow hun (by omega)
  refine ⟨s1, hc, by rw [hck]; rfl, ?_⟩
  intro j hj hoccj
  have hj2 : j < 64 := hj
  have hjk : j ≠ k := by
    intro e; rw [e] at hoccj; exact hoccj hun
  refine ⟨by rw [hsl j hj2, if_neg hjk], hoth j hj2 hoccj, ?_⟩
  by_cases hlt : k < j
  · rw [if_pos hlt, offset_of_update s1.mem s.mem k j hlt (by omega)
      (fun i hi hik => by rw [hsl i hi, if_neg hik]), span_def, span_def, hsl k hk2,
      if_pos rfl, if_neg (by omega), if_pos hun, PADDING_SIZE_eq]
    omega
  · rw [if_neg hlt, offset_of_congr s1.mem s.mem j
      (fun i hi => by rw [hsl i (by omega), if_neg (by omega)])]
    omega

set_option maxRecDepth 1000000 in
/-- Witness for C16: `sample_gap`, where slot 0 is unused and the queue of slot 1 above it
holds 5 and 6. -/
theorem create_queue_preserves_contents_witness :
    ∃ s1, create_queue sample_gap = some (some 0, s1) ∧ (contents s1.mem 0).length = 0 ∧
      ∀ j, j < MAX_QUEUES → slot sample_gap.mem j ≠ UNUSED_QUEUE →
        slot s1.mem j = slot sample_gap.mem j ∧
        contents s1.mem j = contents sample_gap.mem j ∧
        offset_of s1.mem j = offset_of sample_gap.mem j + (if 0 < j then PADDING_SIZE else 0) :=
  create_queue_preserves_contents sample_gap (by decide) 0 (by decide) (by decide)
    (fun j hj => absurd hj (Nat.not_lt_zero j)) (by decide)

/-- C17. `destroy_queue` at the capacity boundary: from `initialize_data`, queues A (slot 0)
and B (slot 1) are created, bytes 8 and 9 are enqueued to B and then 1910 bytes to A, every
call accepted; the usage counter is then `Capacity` and B holds 8 and 9, and
`destroy_queue` on A is undefined instead of freeing A and moving B back, because the
second of its two word copies reads the word at index 2047, outside the array. -/
theorem destroy_undefined_at_capacity :
    ∃ s0 s1 s2 s3, create_queue (initialize_data boot) = some (some 0, s0) ∧
      create_queue s0 = some (some 1, s1) ∧
      enqueue_all s1 (some 1) [8, 9] = some s2 ∧
      enqueue_all s2 (some 0) (List.replicate 1910 7) = some s3 ∧
      WellFormed s3.mem ∧ usage s3.mem = DATA_ARRAY_SIZE ∧ slot s3.mem 0 = 1913 ∧
      contents s3.mem 1 = [8, 9] ∧ s3.log = [] ∧
      get_num_copies (usage s3.mem - offset_of s3.mem 0 - slot s3.mem 0) = 2 ∧
      (∀ m, load32 m (130 + 1913 + 4) = none) ∧
      destroy_queue s3 (some 0) = none := by
  obtain ⟨s0, s1, hc0, hc1, _, hwf1, h10, h11, hus1, hlog1⟩ := fresh_pair boot
  obtain ⟨s2, he2, hwf2, hsl2, hus2, hlog2, hct2, _⟩ :=
    enqueue_all_contents [8, 9] s1 hwf1 1 (by omega) (by omega) (by rw [hus1]; decide)
  have h20 : slot s2.mem 0 = 3 := by rw [hsl2 0 (by omega), if_neg (by omega), h10]
  have h21 : slot s2.mem 1 = 5 := by rw [hsl2 1 (by omega), if_pos rfl, h11]; rfl
  have hus2b : usage s2.mem = 138 := by rw [hus2, hus1]; rfl
  rw [contents_empty _ 1 h11, List.nil_append] at hct2
  obtain ⟨s3, he3, hwf3, hsl3, hus3, hlog3, _, hoth3⟩ :=
    enqueue_all_contents (List.replicate 1910 7) s2 hwf2 0 (by omega) (by omega)
      (by rw [hus2b, List.length_replicate]; norm_num)
  rw [List.length_replicate, hus2b] at hus3
  rw [List.length_replicate] at hsl3
  have h30 : slot s3.mem 0 = 1913 := by rw [hsl3 0 (by omega), if_pos rfl, h20]; norm_num
  have hus3b : usage s3.mem = 2048 := by rw [hus3]; norm_num
  refine ⟨s0, s1, s2, s3, hc0, hc1, he2, he3, hwf3, hus3b, h30, ?_, ?_, ?_, ?_, ?_⟩
  · rw [hoth3 1 (by omega) (by omega) (by omega), hct2]
  · rw [hlog3, hlog2, hlog1]; rfl
  · rw [hus3b, offset_of_zero, h30]; decide
  · intro m; unfold load32; rw [if_neg (by simp only [DATA_ARRAY_SIZE]; omega)]
  · apply destroy_queue_none s3 hwf3 0 (by omega) (by omega)
    · rw [hus3b, offset_of_zero, h30]; decide
    · rw [hus3b, offset_of_zero, h30]; decide

/-- C18. Size lower bound invariant: in every state reachable from `initialize_data` by
calls whose stated preconditions hold, every slot record is `Unused` or a size of at least
`OVERHEAD`, so no logical length is negative. -/
theorem size_lower_bound_invariant (s : Arena) (h : Reachable s) :
    ∀ i, i < MAX_QUEUES →
      slot s.mem i = UNUSED_QUEUE ∨ (PADDING_SIZE ≤ slot s.mem i ∧ 0 ≤ slot s.mem i - PADDING_SIZE) := by
  intro i hi
  rcases (reachable_invariant s h).1.slot_cases i hi with h1 | h1
  · exact Or.inl h1
  · exact Or.inr ⟨by rw [PADDING_SIZE_eq]; exact h1, by rw [PADDING_SIZE_eq]; omega⟩

/-- Witness for C18: the state after `initialize_data`, `create_queue` and one
`enqueue_byte`. -/
theorem size_lower_bound_invariant_witness :
    Reachable sample_enqueued ∧
      ∀ i, i < MAX_QUEUES →
        slot sample_enqueued.mem i = UNUSED_QUEUE ∨
          (PADDING_SIZE ≤ slot sample_enqueued.mem i ∧
            0 ≤ slot sample_enqueued.mem i - PADDING_SIZE) :=
  ⟨sample_enqueued_reachable,
    size_lower_bound_invariant sample_enqueued sample_enqueued_reachable⟩

/-- C19. Table frame: in a well-formed arena, for each operation made with its stated
precondition on slot `k` (the lowest unused slot for `create_queue`, the handle's slot for
the others), a call that completes leaves every byte below `DATA_START_OFFSET` other than
the record of slot `k` and the usage counter as it was, so every other slot record keeps
its value and no queue changes its slot index.  `create_queue` and `enqueue_byte` always
complete under their preconditions; `dequeue_byte` and `destroy_queue` complete at least
when the usage counter is at most `Capacity - 3`. -/
theorem table_frame (s : Arena) (h : WellFormed s.mem) (k : Nat) (hk : k < MAX_QUEUES) :
    (slot s.mem k = UNUSED_QUEUE → (∀ j, j < k → slot s.mem j ≠ UNUSED_QUEUE) →
      usage s.mem ≤ DATA_ARRAY_SIZE - PADDING_SIZE - 2 →
      ∃ s1, create_queue s = some (some k, s1) ∧ TableFrame k s1.mem s.mem ∧
        ∀ i, i < MAX_QUEUES → i ≠ k → slot s1.mem i = slot s.mem i) ∧
    (slot s.mem k ≠ UNUSED_QUEUE → usage s.mem < DATA_ARRAY_SIZE → ∀ b,
      ∃ s1, enqueue_byte s (some k) b = some s1 ∧ TableFrame k s1.mem s.mem ∧
        ∀ i, i < MAX_QUEUES → i ≠ k → slot s1.mem i = slot s.mem i) ∧
    (slot s.mem k > PADDING_SIZE →
      (usage s.mem ≤ DATA_ARRAY_SIZE - PADDING_SIZE →
        ∃ r s1, dequeue_byte s (some k) = some (r, s1)) ∧
      ∀ r s1, dequeue_byte s (some k) = some (r, s1) → TableFrame k s1.mem s.mem ∧
        ∀ i, i < MAX_QUEUES → i ≠ k → slot s1.mem i = slot s.mem i) ∧
    (slot s.mem k ≠ UNUSED_QUEUE →
      (usage s.mem ≤ DATA_ARRAY_SIZE - PADDING_SIZE →
        ∃ s1, destroy_queue s (some k) = some s1) ∧
      ∀ s1, destroy_queue s (some k) = some s1 → TableFrame k s1.mem s.mem ∧
        ∀ i, i < MAX_QUEUES → i ≠ k → slot s1.mem i = slot s.mem i) := by
  have hk2 : k < 64 := hk
  refine ⟨?_, ?_, ?_, ?_⟩
  · intro hun hlow hB
    have hB2 : usage s.mem ≤ 2043 := hB
    obtain ⟨m1, _, hc⟩ := create_queue_some s h k hk2 hlow hun (by omega)
    have hf := create_queue_frame s _ _ h k hk2 hlow hun hc
    exact ⟨_, hc, hf, fun i hi hik => hf.other_slot_eq i hi hik⟩
  · intro hocc hB b
    have hB2 : usage s.mem < 2048 := hB
    obtain ⟨m1, _, hc⟩ := enqueue_byte_some s h k hk2 hocc hB2 b
    have hf := enqueue_byte_frame s _ h k b hk2 hocc hB2 hc
    exact ⟨_, hc, hf, fun i hi hik => hf.other_slot_eq i hi hik⟩
  · intro hne
    have hne2 : 3 < slot s.mem k := by
      have : PADDING_SIZE < slot s.mem k := hne
      rw [PADDING_SIZE_eq] at this; exact this
    have hocc : slot s.mem k ≠ -1 := by omega
    constructor
    · intro hB
      have hB2 : usage s.mem ≤ 2045 := hB
      obtain ⟨m1, _, hc⟩ := dequeue_byte_some s h k hk2 hocc hB2
      exact ⟨_, _, hc⟩
    · intro r s1 hc
      have hf := dequeue_byte_frame s s1 r h k hk2 hocc hc
      exact ⟨hf, fun i hi hik => hf.other_slot_eq i hi hik⟩
  · intro hocc
    constructor
    · intro hB
      have hB2 : usage s.mem ≤ 2045 := hB
      obtain ⟨m1, _, hc⟩ := destroy_queue_some s h k hk2 hocc hB2
      exact ⟨_, hc⟩
    · intro s1 hc
      have hf := destroy_queue_frame s s1 h k hk2 hocc hc
      exact ⟨hf, fun i hi hik => hf.other_slot_eq i hi hik⟩

set_option maxRecDepth 1000000 in
/-- Witness for C19: slot 1 of `sample_gap`, an occupied slot above an unused one. -/
theorem table_frame_witness :
    (slot sample_gap.mem 1 = UNUSED_QUEUE →
      (∀ j, j < 1 → slot sample_gap.mem j ≠ UNUSED_QUEUE) →
      usage sample_gap.mem ≤ DATA_ARRAY_SIZE - PADDING_SIZE - 2 →
      ∃ s1, create_queue sample_gap = some (some 1, s1) ∧ TableFrame 1 s1.mem sample_gap.mem ∧
        ∀ i, i < MAX_QUEUES → i ≠ 1 → slot s1.mem i = slot sample_gap.mem i) ∧
    (slot sample_gap.mem 1 ≠ UNUSED_QUEUE → usage sample_gap.mem < DATA_ARRAY_SIZE → ∀ b,
      ∃ s1, enqueue_byte sample_gap (some 1) b = some s1 ∧
        TableFrame 1 s1.mem sample_gap.mem ∧
        ∀ i, i < MAX_QUEUES → i ≠ 1 → slot s1.mem i = slot sample_gap.mem i) ∧
    (slot sample_gap.mem 1 > PADDING_SIZE →
      (usage sample_gap.mem ≤ DATA_ARRAY_SIZE - PADDING_SIZE →
        ∃ r s1, dequeue_byte sample_gap (some 1) = some (r, s1)) ∧
      ∀ r s1, dequeue_byte sample_gap (some 1) = some (r, s1) →
        TableFrame 1 s1.mem sample_gap.mem ∧
        ∀ i, i < MAX_QUEUES → i ≠ 1 → slot s1.mem i = slot sample_gap.mem i) ∧
    (slot sample_gap.mem 1 ≠ UNUSED_QUEUE →
      (usage sample_gap.mem ≤ DATA_ARRAY_SIZE - PADDING_SIZE →
        ∃ s1, destroy_queue sample_gap (some 1) = some s1) ∧
      ∀ s1, destroy_queue sample_gap (some 1) = some s1 →
        TableFrame 1 s1.mem sample_gap.mem ∧
        ∀ i, i < MAX_QUEUES → i ≠ 1 → slot s1.mem i = slot sample_gap.mem i) :=
  table_frame sample_gap (by decide) 1 (by decide)

/-- C20. Usable capacity: in every well-formed arena the number of bytes stored over all
queues equals the usage counter minus `DATA_START_OFFSET` minus `PADDING_SIZE` for each
occupied slot; and from `initialize_data`, whatever the buffer held, followed by one
`create_queue`, any 1915 bytes are accepted by `enqueue_byte` on that queue with no failure
reported and bring the usage counter to exactly `DATA_ARRAY_SIZE`, and the 1916th call
reports `OutOfMemory`. -/
theorem usable_capacity :
    (∀ m, WellFormed m → stored_bytes m MAX_QUEUES =
      usage m - DATA_START_OFFSET - PADDING_SIZE * occupied_count m MAX_QUEUES) ∧
    (∀ (s : Arena) (bs : List Byte) (b : Byte), bs.length = 1915 →
      ∃ s0 s1 s2, create_queue (initialize_data s) = some (some 0, s0) ∧ s0.log = s.log ∧
        enqueue_all s0 (some 0) bs = some s1 ∧ s1.log = s.log ∧
        usage s1.mem = DATA_ARRAY_SIZE ∧ contents s1.mem 0 = bs ∧
        enqueue_byte s1 (some 0) b = some s2 ∧ s2.log = s.log ++ [Failure.OutOfMemory]) := by
  constructor
  · intro m h
    have e := stored_bytes_eq m h 64 (le_refl _)
    have e2 : usage m = 130 + occupied_sum m 64 := h.usage_eq
    show stored_bytes m 64 = usage m - DATA_START_OFFSET - PADDING_SIZE * occupied_count m 64
    have e3 : (DATA_START_OFFSET : Int) = 130 := by decide
    rw [e, e2, PADDING_SIZE_eq, e3]; omega
  · intro s bs b hlen
    obtain ⟨s0, s1, hc, _, _, _, hlog0, _, he, hwf1, hk1, hus1, hlog1, _, hct1⟩ :=
      fill_queue s bs hlen
    have hocc : slot s1.mem 0 ≠ -1 := by rw [hk1]; omega
    have hn : (get_num_copies (usage s1.mem - (offset_of s1.mem 0 + slot s1.mem 0))).toNat
        = 0 := by
      rw [hus1, offset_of_zero, hk1]; decide
    have hq := enqueue_byte_eq s1 hwf1 0 (by omega) hocc (by omega) b
    rw [hn] at hq
    refine ⟨s0, s1, _, hc, hlog0, he, hlog1, hus1, hct1, hq, ?_⟩
    simp only [enqueued]
    rw [if_pos (by omega), hlog1]

set_option maxRecDepth 1000000 in
/-- Witness for C20: the count on `sample_gap`, and the zero-initialised buffer filled with
1915 bytes 7, then offered a byte 9. -/
theorem usable_capacity_witness :
    stored_bytes sample_gap.mem MAX_QUEUES =
      usage sample_gap.mem - DATA_START_OFFSET -
        PADDING_SIZE * occupied_count sample_gap.mem MAX_QUEUES ∧
    ∃ s0 s1 s2, create_queue (initialize_data boot) = some (some 0, s0) ∧ s0.log = boot.log ∧
      enqueue_all s0 (some 0) (List.replicate 1915 7) = some s1 ∧ s1.log = boot.log ∧
      usage s1.mem = DATA_ARRAY_SIZE ∧ contents s1.mem 0 = List.replicate 1915 7 ∧
      enqueue_byte s1 (some 0) 9 = some s2 ∧ s2.log = boot.log ++ [Failure.OutOfMemory] :=
  ⟨usable_capacity.1 sample_gap.mem (by decide),
    usable_capacity.2 boot (List.replicate 1915 7) 9 (List.length_replicate _ _)⟩

end Scs
